/-
Verification of the M8 Kit Creator core against its specification.

The development shallowly embeds the two binary serializers
(`m8_kitcreator/octatrack_writer.py` and the cue-chunk builder of
`m8_kitcreator/audio_processor.py`) and the kit-assembly loop of
`AudioProcessor.concatenate_audio_files`.  Machine bytes are `Nat`s
below 256, byte buffers are `List Nat`, Python floats are modelled as
rationals (all inputs exercised by the theorems are exactly
representable in binary floating point, so the rational model agrees
with the float computation there), and the external pydub audio
library is modelled at the frame/millisecond level following the
formulas of its `AudioSegment` implementation.
-/
import Mathlib


/-! ## Byte-buffer primitives

`bytearray` indexing and `struct.pack_into` are modelled on `List Nat`.
`byteAt l i` is `l[i]` with 0 for out-of-range (all accesses proved in
range where it matters); `writeBytes d off bs` is
`d[off:off+len(bs)] = bs`, the effect of `struct.pack_into` at offset
`off` (in-bounds in every use below, matching Python which raises on an
out-of-bounds pack). -/

def byteAt : List ℕ → ℕ → ℕ
  | [], _ => 0
  | b :: _, 0 => b
  | _ :: l, n + 1 => byteAt l n

def overwrite : List ℕ → List ℕ → List ℕ
  | d, [] => d
  | [], _ :: _ => []
  | _ :: d, b :: bs => b :: overwrite d bs

def writeBytes : List ℕ → ℕ → List ℕ → List ℕ
  | d, 0, bs => overwrite d bs
  | [], _ + 1, _ => []
  | b :: d, off + 1, bs => b :: writeBytes d off bs

/-- Big-endian 4-byte encoding, as produced by `struct.pack('>I', v)`. -/
def be32 (v : ℕ) : List ℕ :=
  [v / 16777216 % 256, v / 65536 % 256, v / 256 % 256, v % 256]

/-- Big-endian 2-byte encoding, as produced by `struct.pack('>H', v)`. -/
def be16 (v : ℕ) : List ℕ :=
  [v / 256 % 256, v % 256]

/-- Little-endian 4-byte encoding, as produced by `struct.pack('<L', v)`. -/
def le32 (v : ℕ) : List ℕ :=
  [v % 256, v / 256 % 256, v / 65536 % 256, v / 16777216 % 256]

/-- Value of the big-endian 32-bit field stored at `off`. -/
def be32val (l : List ℕ) (off : ℕ) : ℕ :=
  byteAt l off * 16777216 + byteAt l (off + 1) * 65536 +
    byteAt l (off + 2) * 256 + byteAt l (off + 3)

/-- Value of the big-endian 16-bit field stored at `off`. -/
def be16val (l : List ℕ) (off : ℕ) : ℕ :=
  byteAt l off * 256 + byteAt l (off + 1)

/-- Value of the little-endian 32-bit field stored at `off`. -/
def le32val (l : List ℕ) (off : ℕ) : ℕ :=
  byteAt l off + byteAt l (off + 1) * 256 +
    byteAt l (off + 2) * 65536 + byteAt l (off + 3) * 16777216

/-! ## Python numeric semantics

`pyIntTrunc` models Python `int(x)` on a float/rational value
(truncation toward zero); `pyRound` models Python `round(x)`
(round-half-to-even, "banker's rounding").  Python floats are modelled
as rationals; every concrete input used below is exactly representable
as a binary float, where the two computations agree. -/

def pyIntTrunc (q : ℚ) : ℤ :=
  if 0 ≤ q then ⌊q⌋ else ⌈q⌉

def pyRound (q : ℚ) : ℤ :=
  let f := ⌊q⌋
  let r := q - f
  if r < 1 / 2 then f
  else if 1 / 2 < r then f + 1
  else if f % 2 = 0 then f else f + 1

/-! ## Octatrack `.ot` writer (`m8_kitcreator/octatrack_writer.py`)

`OTState` carries the fields of an `OctatrackWriter` instance that the
serializer reads (the output path is irrelevant to the bytes).  A slice
dict `{'start': s, 'end': e, 'loop': l}` becomes `OTSlice`. -/

structure OTSlice where
  start : ℕ
  endPoint : ℕ
  loop : ℕ
deriving DecidableEq, Repr

structure OTState where
  sampleRate : ℕ
  totalSamples : ℕ
  tempo : ℚ
  gain : ℤ
  loopType : ℕ
  stretch : ℕ
  quantize : ℕ
  slices : List OTSlice
deriving DecidableEq, Repr

/-- Exceptions relevant to the writer: `add_slice` raises `ValueError`;
`exceptions.py` separately defines `OctatrackError`, which the writer
module never raises. -/
inductive PyExc where
  | valueError
  | octatrackError
deriving DecidableEq, Repr

/-- Mirror of `OctatrackWriter.__init__(output_path, sample_rate, total_samples)`
with `tempo/gain/loop_type/stretch/quantize` left as `None`, so the
class defaults `DEFAULT_TEMPO = 120.0`, `DEFAULT_GAIN = 0`,
`DEFAULT_LOOP_TYPE = 0`, `DEFAULT_STRETCH = 0`, `DEFAULT_QUANTIZE = 0`
are taken, and `self.slices = []`. -/
def otWriterInit (sampleRate totalSamples : ℕ) : OTState :=
  { sampleRate := sampleRate
    totalSamples := totalSamples
    tempo := 120
    gain := 0
    loopType := 0
    stretch := 0
    quantize := 0
    slices := [] }

/-- Mirror of `OctatrackWriter.add_slice`: raises `ValueError` when 64
slices are already stored (`len(self.slices) >= self.MAX_SLICES`),
otherwise appends `{'start': s, 'end': e, 'loop': loop or 0xFFFFFFFF}`.
The returned pair is (raised exception if any, state of `self.slices`
after the call); `add_slice` performs no file I/O. -/
def addSlice (w : OTState) (startPoint endPoint : ℕ) (loopPoint : Option ℕ) :
    Except PyExc Unit × OTState :=
  if 64 ≤ w.slices.length then
    (Except.error PyExc.valueError, w)
  else
    (Except.ok (), { w with slices := w.slices ++ [⟨startPoint, endPoint, loopPoint.getD 4294967295⟩] })

/-- Mirror of `OctatrackWriter._calculate_bars_length`, with the
source's intermediate variables inlined:
`duration_seconds = total_samples / sample_rate`,
`beats_per_second = tempo / 60`,
`total_beats = duration_seconds * beats_per_second`,
`bars = total_beats / 4`, `bars_rounded = round(bars * 4) / 4`,
result `max(0.25, bars_rounded)`; the zero guard returns 1.0. -/
def calcBarsLength (w : OTState) : ℚ :=
  if w.totalSamples = 0 ∨ w.sampleRate = 0 then 1
  else
    max (1 / 4)
      ((pyRound ((((w.totalSamples : ℚ) / (w.sampleRate : ℚ)) * (w.tempo / 60)) / 4 * 4) : ℚ) / 4)

/-- Mirror of `OctatrackWriter._calculate_checksum`: sum of `data[i]`
for `i in range(16, FILE_SIZE - 2)`, masked to 16 bits. -/
def calcChecksum (data : List ℕ) : ℕ :=
  (((List.range' 16 814).map fun i => byteAt data i).sum) % 65536

/-- The fixed `HEADER_MAGIC = b'FORM\x00\x00\x03,DPS1SMPA'` (16 bytes). -/
def otMagic : List ℕ :=
  [70, 79, 82, 77, 0, 0, 3, 44, 68, 80, 83, 49, 83, 77, 80, 65]

/-- Tempo value of `write()`: `int(self.tempo * 6)`. -/
def tempoValue (w : OTState) : ℕ :=
  (pyIntTrunc (w.tempo * 6)).toNat

/-- Trim-length value of `write()`: `int(bars_length * 384)` (the loop
length written at 0x18 is computed from `loop_length = bars_length` by
the same formula, hence is the same number). -/
def trimLengthValue (w : OTState) : ℕ :=
  (pyIntTrunc (calcBarsLength w * 384)).toNat

/-- Gain value of `write()`: `int(self.gain + 48)`. -/
def gainValue (w : OTState) : ℕ :=
  (w.gain + 48).toNat

/-- The slice-table loop of `write()`: each slice packs three
big-endian uint32 values (start, end, loop) at `offset`, advancing by
12 bytes per slice, starting at 0x38. -/
def writeSlices (data : List ℕ) (off : ℕ) : List OTSlice → List ℕ
  | [] => data
  | s :: rest =>
    writeSlices
      (writeBytes (writeBytes (writeBytes data off (be32 s.start))
        (off + 4) (be32 s.endPoint)) (off + 8) (be32 s.loop))
      (off + 12) rest

/-- The 832-byte buffer built by `OctatrackWriter.write()` just before
the checksum is packed: `bytearray(832)` with header magic, tempo,
trim/loop length, stretch, loop type, gain, quantize, trim start/end,
loop point, slice count and slice table written at their offsets. -/
def otPre (w : OTState) : List ℕ :=
  writeSlices
    (writeBytes (writeBytes (writeBytes (writeBytes (writeBytes (writeBytes
      (writeBytes (writeBytes (writeBytes (writeBytes (writeBytes
        (writeBytes (List.replicate 832 0) 0 otMagic)
        0x10 (be32 (tempoValue w)))
        0x14 (be32 (trimLengthValue w)))
        0x18 (be32 (trimLengthValue w)))
        0x1C (be32 w.stretch))
        0x20 (be32 w.loopType))
        0x24 (be16 (gainValue w)))
        0x26 [w.quantize])
        0x28 (be32 0))
        0x2C (be32 w.totalSamples))
        0x30 (be32 0))
        0x34 (be32 w.slices.length))
    0x38 w.slices

/-- The complete file contents written by `OctatrackWriter.write()`:
the pre-checksum buffer with `_calculate_checksum` of that buffer
packed big-endian at offset 0x33E. -/
def otBytes (w : OTState) : List ℕ :=
  writeBytes (otPre w) 0x33E (be16 (calcChecksum (otPre w)))

/-! ## The `.ot` generation path of the assembler
(`AudioProcessor._generate_ot_file`): an `OctatrackWriter` is
constructed with only `output_path`, `sample_rate` and `total_samples`
(every other parameter left to its default), one slice is added per
consecutive pair of cue positions, and `write()` is called.  A raised
exception is caught and no file is produced. -/

def addSlicesLoop (w : OTState) : List (ℕ × ℕ) → Option PyExc × OTState
  | [] => (none, w)
  | p :: rest =>
    match addSlice w p.1 p.2 none with
    | (Except.error e, w1) => (some e, w1)
    | (Except.ok _, w1) => addSlicesLoop w1 rest

def generateOtFile (sampleRate totalSamples : ℕ) (cues : List ℕ) : Option (List ℕ) :=
  match addSlicesLoop (otWriterInit sampleRate totalSamples) (cues.zip cues.tail) with
  | (some _, _) => none
  | (none, w) => some (otBytes w)

/-- A writer state holding the maximum of 64 slices. -/
def otFull64 : OTState :=
  { sampleRate := 44100
    totalSamples := 4410000
    tempo := 120
    gain := 0
    loopType := 0
    stretch := 0
    quantize := 0
    slices := List.replicate 64 ⟨0, 1000, 4294967295⟩ }

/-- A writer state with tempo 100.125 BPM (exactly representable as a
binary float). -/
def otTempo100125 : OTState :=
  { sampleRate := 44100
    totalSamples := 44100
    tempo := 801 / 8
    gain := 0
    loopType := 0
    stretch := 0
    quantize := 0
    slices := [] }

instance : DecidableEq (Except PyExc Unit) := fun a b =>
  match a, b with
  | Except.error x, Except.error y =>
    if h : x = y then isTrue (by rw [h]) else isFalse (fun hh => h (by injection hh))
  | Except.ok x, Except.ok y => isTrue (by cases x; cases y; rfl)
  | Except.error _, Except.ok _ => isFalse (fun hh => Except.noConfusion hh)
  | Except.ok _, Except.error _ => isFalse (fun hh => Except.noConfusion hh)

/-- The writer state built by the pipeline for a two-cue run. -/
def otPipelineTwoCues : OTState :=
  { sampleRate := 44100
    totalSamples := 88200
    tempo := 120
    gain := 0
    loopType := 0
    stretch := 0
    quantize := 0
    slices := [⟨44, 500, 4294967295⟩] }

/-- The bars formula exactly as the claim words it: duration in seconds
times beats per second, divided by 4 beats per bar, rounded to the
nearest 0.25 (Python tie rule), floored at 0.25 bars. -/
def specBars (totalFrames sampleRate : ℕ) (tempo : ℚ) : ℚ :=
  max (1 / 4)
    ((pyRound ((((totalFrames : ℚ) / (sampleRate : ℚ)) * (tempo / 60)) / 4 * 4) : ℚ) / 4)

/-- A writer state whose audio has zero frames (the constructor default
`total_samples = 0`, also produced by an empty assembly run). -/
def otZeroFrames : OTState :=
  { sampleRate := 44100
    totalSamples := 0
    tempo := 120
    gain := 0
    loopType := 0
    stretch := 0
    quantize := 0
    slices := [] }

/-! ## WAV cue chunk (`AudioProcessor._add_cue_points`)

`cue_chunk_data = pack('<L', len(cue_positions))` followed, for each
`i, position` in enumeration order, by
`pack('<LL4sLLL', i + 1, position, b'data', 0, 0, position)`;
the chunk is `b'cue ' + pack('<L', len(cue_chunk_data)) + cue_chunk_data`. -/

def cueRecord (cueId position : ℕ) : List ℕ :=
  le32 cueId ++ le32 position ++ [100, 97, 116, 97] ++ le32 0 ++ le32 0 ++ le32 position

def cueChunkData (ps : List ℕ) : List ℕ :=
  (List.enum ps).foldl (fun acc ip => acc ++ cueRecord (ip.1 + 1) ip.2) (le32 ps.length)

def cueChunk (ps : List ℕ) : List ℕ :=
  [99, 117, 101, 32] ++ le32 (cueChunkData ps).length ++ cueChunkData ps

/-- The concatenated cue records for positions `ps` with first cue id `k`. -/
def recordsFlat : List ℕ → ℕ → List ℕ
  | [], _ => []
  | p :: rest, k => cueRecord k p ++ recordsFlat rest (k + 1)

/-! ## Audio segments (pydub `AudioSegment`, modelled at frame level)

An `AudioSeg` tracks the per-channel frame count, channel count and
frame rate of a pydub segment.  Operations follow pydub's formulas:
`silent(duration, frame_rate)` makes `int(frame_rate * duration/1000)`
mono frames; `set_channels` keeps the frame count;
`len(seg)` is `round(1000 * frame_count / frame_rate)` milliseconds;
`seg1 + seg2` concatenates (after `_sync`; the `max` on the metadata is
faithful when the rates agree or one side is empty — mixed sample
rates are out of scope, spec §9); `seg[:-r]` slices by milliseconds:
Python turns `-0` into `0` (so `retained_silence = 0` yields the empty
prefix `seg[:0]`), otherwise the end frame is
`int((len(seg) - r) * frame_rate / 1000)`, short data being padded with
silence up to that frame count and a negative index clipping from the
end. -/

structure AudioSeg where
  frames : ℕ
  channels : ℕ
  rate : ℕ
deriving DecidableEq, Repr

def emptySeg : AudioSeg := ⟨0, 1, 1⟩

def silentSeg (durationMs frameRate : ℕ) : AudioSeg :=
  ⟨frameRate * durationMs / 1000, 1, frameRate⟩

def setChannels (s : AudioSeg) (n : ℕ) : AudioSeg :=
  ⟨s.frames, n, s.rate⟩

def appendSeg (a b : AudioSeg) : AudioSeg :=
  ⟨a.frames + b.frames, max a.channels b.channels, max a.rate b.rate⟩

/-- `len(audio.get_array_of_samples())`. -/
def sampleCount (s : AudioSeg) : ℕ := s.frames * s.channels

/-- Mirror of `AudioProcessor._calculate_frame_position`:
`sample_count // channels`. -/
def framePosition (s : AudioSeg) : ℕ := sampleCount s / s.channels

/-- pydub `len(seg)` in milliseconds. -/
def lenMs (s : AudioSeg) : ℕ :=
  (pyRound ((1000 * s.frames : ℚ) / (s.rate : ℚ))).toNat

/-- pydub `seg[:-r]` (slice off the trailing `r` milliseconds). -/
def sliceDropLastMs (s : AudioSeg) (r : ℕ) : AudioSeg :=
  let endMs : ℤ := if r = 0 then 0 else (lenMs s : ℤ) - (r : ℤ)
  let e : ℤ := pyIntTrunc ((endMs : ℚ) * (s.rate : ℚ) / 1000)
  { frames := if 0 ≤ e then e.toNat else s.frames - e.natAbs
    channels := s.channels
    rate := s.rate }

/-- The rejoin step of `AudioProcessor._process_silence`:
`sum([chunk + retain_silence for chunk in chunks], AudioSegment.empty())[:-retained_silence]`. -/
def rejoin (chunks : List AudioSeg) (pad : AudioSeg) (retainedMs : ℕ) : AudioSeg :=
  sliceDropLastMs
    (chunks.foldl (fun acc c => appendSeg acc (appendSeg c pad)) emptySeg) retainedMs

/-- Mirror of `AudioProcessor._process_silence`; `split` stands for
`pydub.silence.split_on_silence` with the processor's threshold
parameters applied (an external library function, kept abstract). -/
def processSilence (split : AudioSeg → List AudioSeg) (audio pad : AudioSeg)
    (retainedMs : ℕ) : AudioSeg :=
  if (split audio).isEmpty then audio else rejoin (split audio) pad retainedMs

inductive OutputFormat where
  | m8
  | octatrack
  | both
deriving DecidableEq, BEq, Repr

structure RunConfig where
  markerMs : ℕ
  retainedMs : ℕ
  forceMono : Bool
  fmt : OutputFormat
deriving DecidableEq, Repr

/-- `if audio.channels != target_channels: audio = audio.set_channels(...)`. -/
def convertChannels (audio : AudioSeg) (tc : ℕ) : AudioSeg :=
  if audio.channels ≠ tc then setChannels audio tc else audio

/-- The per-file tail of the loop body of `concatenate_audio_files`
(silence processing, append, frame-position bookkeeping, trailing
marker): returns the new concatenated buffer and the recorded cue
position. -/
def stepFile (cfg : RunConfig) (split : AudioSeg → List AudioSeg)
    (marker pad : AudioSeg) (tc : ℕ) (audio conc : AudioSeg) : AudioSeg × ℕ :=
  let processed := processSilence split (convertChannels audio tc) pad cfg.retainedMs
  let conc2 := appendSeg conc processed
  (appendSeg conc2 marker, framePosition conc2)

structure LoopResult where
  success : Bool
  conc : AudioSeg
  cues : List ℕ
  calls : List (ℕ × ℕ)
deriving DecidableEq, Repr

/-- The file loop of `AudioProcessor.concatenate_audio_files`.  A file
is `none` when `AudioSegment.from_wav` raises (decode failure), in
which case the method returns `False` at once.  `calls` records the
progress-callback invocations in order; on the first file the target
channel count, marker and retained-silence pad are built from that
file's rate and carried in the state. -/
def concatLoop (cfg : RunConfig) (split : AudioSeg → List AudioSeg) (total : ℕ) :
    List (Option AudioSeg) → ℕ → Option (AudioSeg × AudioSeg × ℕ) → AudioSeg →
      List ℕ → List (ℕ × ℕ) → LoopResult
  | [], _, _, conc, cues, calls => ⟨true, conc, cues, calls⟩
  | f :: rest, i, st, conc, cues, calls =>
    match f with
    | none => ⟨false, conc, cues, calls ++ [(i, total)]⟩
    | some audio =>
      match st with
      | none =>
        let tc := if cfg.forceMono then 1 else audio.channels
        let marker := setChannels (silentSeg cfg.markerMs audio.rate) tc
        let pad := setChannels (silentSeg cfg.retainedMs audio.rate) tc
        let conc1 := appendSeg conc marker
        let mf := sampleCount marker / marker.channels
        let res := stepFile cfg split marker pad tc audio conc1
        concatLoop cfg split total rest (i + 1) (some (marker, pad, tc))
          res.1 (cues ++ [mf, res.2]) (calls ++ [(i, total)])
      | some (marker, pad, tc) =>
        let res := stepFile cfg split marker pad tc audio conc
        concatLoop cfg split total rest (i + 1) (some (marker, pad, tc))
          res.1 (cues ++ [res.2]) (calls ++ [(i, total)])

structure RunOutcome where
  success : Bool
  cues : List ℕ
  calls : List (ℕ × ℕ)
  exported : Bool
  cueChunkWritten : Bool
  otWritten : Bool
deriving DecidableEq, Repr

/-- Mirror of `AudioProcessor.concatenate_audio_files` over decode
results.  The WAV export and the cue-chunk append are local I/O whose
failure modes (disk errors) are modelled as succeeding; `.ot`
generation fails — making the method return `False` after the WAV was
exported — exactly when `generateOtFile` yields no file (a 65th
`add_slice` raised).  The final `(total, total)` progress call happens
before the export, as in the source. -/
def concatenateAudioFiles (cfg : RunConfig) (split : AudioSeg → List AudioSeg)
    (files : List (Option AudioSeg)) : RunOutcome :=
  let total := files.length
  let r := concatLoop cfg split total files 0 none emptySeg [] []
  if r.success then
    let calls := r.calls ++ [(total, total)]
    let cueNeeded := cfg.fmt == OutputFormat.m8 || cfg.fmt == OutputFormat.both
    let otNeeded := cfg.fmt == OutputFormat.octatrack || cfg.fmt == OutputFormat.both
    let otResult := generateOtFile r.conc.rate (sampleCount r.conc / r.conc.channels) r.cues
    if otNeeded && otResult.isNone then
      ⟨false, r.cues, calls, true, cueNeeded, false⟩
    else
      ⟨true, r.cues, calls, true, cueNeeded, otNeeded⟩
  else
    ⟨false, r.cues, r.calls, false, false, false⟩

/-! ## Theorems -/

theorem overwrite_nil (d : List ℕ) : overwrite d [] = d := by
  cases d <;> rfl

theorem overwrite_nil_left (bs : List ℕ) : overwrite [] bs = [] := by
  cases bs <;> rfl

theorem overwrite_cons_cons (x b : ℕ) (d bs : List ℕ) :
    overwrite (x :: d) (b :: bs) = b :: overwrite d bs := rfl

theorem writeBytes_zero (d bs : List ℕ) : writeBytes d 0 bs = overwrite d bs := by
  cases d <;> cases bs <;> rfl

theorem writeBytes_nil_left (off : ℕ) (bs : List ℕ) : writeBytes [] off bs = [] := by
  cases off with
  | zero => rw [writeBytes_zero]; exact overwrite_nil_left bs
  | succ off => rfl

theorem writeBytes_succ_cons (x : ℕ) (d : List ℕ) (off : ℕ) (bs : List ℕ) :
    writeBytes (x :: d) (off + 1) bs = x :: writeBytes d off bs := rfl

theorem length_overwrite (d bs : List ℕ) : (overwrite d bs).length = d.length := by
  induction bs generalizing d with
  | nil => rw [overwrite_nil]
  | cons b bs ih =>
    cases d with
    | nil => rw [overwrite_nil_left]
    | cons x d => rw [overwrite_cons_cons]; simp [ih]

theorem length_writeBytes (d : List ℕ) (off : ℕ) (bs : List ℕ) :
    (writeBytes d off bs).length = d.length := by
  induction off generalizing d with
  | zero => rw [writeBytes_zero]; exact length_overwrite d bs
  | succ off ih =>
    cases d with
    | nil => rw [writeBytes_nil_left]
    | cons x d => rw [writeBytes_succ_cons]; simp [ih]

theorem byteAt_overwrite_ge (d bs : List ℕ) (i : ℕ) (h : bs.length ≤ i) :
    byteAt (overwrite d bs) i = byteAt d i := by
  induction bs generalizing d i with
  | nil => rw [overwrite_nil]
  | cons b bs ih =>
    cases d with
    | nil => rw [overwrite_nil_left]
    | cons x d =>
      cases i with
      | zero => simp at h
      | succ i => rw [overwrite_cons_cons]; exact ih d i (by simpa using h)

theorem byteAt_overwrite_lt (d bs : List ℕ) (i : ℕ)
    (h : i < bs.length) (h2 : bs.length ≤ d.length) :
    byteAt (overwrite d bs) i = byteAt bs i := by
  induction bs generalizing d i with
  | nil => simp at h
  | cons b bs ih =>
    cases d with
    | nil => simp at h2
    | cons x d =>
      cases i with
      | zero => rfl
      | succ i =>
        rw [overwrite_cons_cons]
        exact ih d i (by simpa using h) (by simpa using h2)

theorem byteAt_writeBytes_lt (d : List ℕ) (off : ℕ) (bs : List ℕ) (i : ℕ) (h : i < off) :
    byteAt (writeBytes d off bs) i = byteAt d i := by
  induction off generalizing d i with
  | zero => omega
  | succ off ih =>
    cases d with
    | nil => rw [writeBytes_nil_left]
    | cons x d =>
      rw [writeBytes_succ_cons]
      cases i with
      | zero => rfl
      | succ i => exact ih d i (by omega)

theorem byteAt_writeBytes_ge (d : List ℕ) (off : ℕ) (bs : List ℕ) (i : ℕ)
    (h : off + bs.length ≤ i) :
    byteAt (writeBytes d off bs) i = byteAt d i := by
  induction off generalizing d i with
  | zero => rw [writeBytes_zero]; exact byteAt_overwrite_ge d bs i (by omega)
  | succ off ih =>
    cases d with
    | nil => rw [writeBytes_nil_left]
    | cons x d =>
      rw [writeBytes_succ_cons]
      cases i with
      | zero => omega
      | succ i => exact ih d i (by omega)

theorem byteAt_writeBytes_in (d : List ℕ) (off : ℕ) (bs : List ℕ) (j : ℕ)
    (h : j < bs.length) (h2 : off + bs.length ≤ d.length) :
    byteAt (writeBytes d off bs) (off + j) = byteAt bs j := by
  induction off generalizing d with
  | zero =>
    rw [writeBytes_zero, Nat.zero_add]
    exact byteAt_overwrite_lt d bs j h (by omega)
  | succ off ih =>
    cases d with
    | nil => simp at h2
    | cons x d =>
      rw [writeBytes_succ_cons]
      have he : off + 1 + j = (off + j) + 1 := by omega
      rw [he]
      have h2d : off + bs.length ≤ d.length := by simp at h2; omega
      exact ih d h2d

theorem take_writeBytes (d : List ℕ) (off : ℕ) (bs : List ℕ) (n : ℕ) (h : n ≤ off) :
    (writeBytes d off bs).take n = d.take n := by
  induction off generalizing d n with
  | zero =>
    have hn : n = 0 := by omega
    simp [hn]
  | succ off ih =>
    cases d with
    | nil => rw [writeBytes_nil_left]
    | cons x d =>
      rw [writeBytes_succ_cons]
      cases n with
      | zero => rfl
      | succ n => simp [List.take_succ_cons, ih d n (by omega)]

theorem take_overwrite_self (d bs : List ℕ) (h : bs.length ≤ d.length) :
    (overwrite d bs).take bs.length = bs := by
  induction bs generalizing d with
  | nil => rfl
  | cons b bs ih =>
    cases d with
    | nil => simp at h
    | cons x d =>
      rw [overwrite_cons_cons]
      simp [List.take_succ_cons, ih d (by simpa using h)]

theorem pyIntTrunc_intCast (m : ℤ) : pyIntTrunc (m : ℚ) = m := by
  unfold pyIntTrunc
  split <;> simp

theorem pyIntTrunc_natCast (n : ℕ) : pyIntTrunc (n : ℚ) = n := by
  have : ((n : ℤ) : ℚ) = (n : ℚ) := by push_cast; ring
  rw [← this, pyIntTrunc_intCast]

theorem pyRound_intCast (m : ℤ) : pyRound (m : ℚ) = m := by
  unfold pyRound
  simp

theorem pyRound_natCast (n : ℕ) : pyRound (n : ℚ) = n := by
  have : ((n : ℤ) : ℚ) = (n : ℚ) := by push_cast; ring
  rw [← this, pyRound_intCast]

theorem length_writeSlices (L : List OTSlice) (d : List ℕ) (off : ℕ) :
    (writeSlices d off L).length = d.length := by
  induction L generalizing d off with
  | nil => rfl
  | cons s rest ih =>
    simp [writeSlices, ih, length_writeBytes]

theorem byteAt_writeSlices_lt (L : List OTSlice) (d : List ℕ) (off i : ℕ) (h : i < off) :
    byteAt (writeSlices d off L) i = byteAt d i := by
  induction L generalizing d off with
  | nil => rfl
  | cons s rest ih =>
    rw [writeSlices, ih _ _ (by omega), byteAt_writeBytes_lt _ _ _ _ (by omega),
      byteAt_writeBytes_lt _ _ _ _ (by omega), byteAt_writeBytes_lt _ _ _ _ (by omega)]

theorem take_writeSlices (L : List OTSlice) (d : List ℕ) (off n : ℕ) (h : n ≤ off) :
    (writeSlices d off L).take n = d.take n := by
  induction L generalizing d off with
  | nil => rfl
  | cons s rest ih =>
    rw [writeSlices, ih _ _ (by omega), take_writeBytes _ _ _ _ (by omega),
      take_writeBytes _ _ _ _ (by omega), take_writeBytes _ _ _ _ (by omega)]

theorem otPre_length (w : OTState) : (otPre w).length = 832 := by
  unfold otPre
  rw [length_writeSlices, length_writeBytes, length_writeBytes, length_writeBytes,
    length_writeBytes, length_writeBytes, length_writeBytes, length_writeBytes,
    length_writeBytes, length_writeBytes, length_writeBytes, length_writeBytes,
    length_writeBytes, List.length_replicate]

theorem otBytes_length_eq (w : OTState) : (otBytes w).length = 832 := by
  rw [otBytes, length_writeBytes, otPre_length]

theorem otPre_take16 (w : OTState) : (otPre w).take 16 = otMagic := by
  unfold otPre
  rw [take_writeSlices _ _ _ _ (by omega), take_writeBytes _ _ _ _ (by omega),
    take_writeBytes _ _ _ _ (by omega), take_writeBytes _ _ _ _ (by omega),
    take_writeBytes _ _ _ _ (by omega), take_writeBytes _ _ _ _ (by omega),
    take_writeBytes _ _ _ _ (by omega), take_writeBytes _ _ _ _ (by omega),
    take_writeBytes _ _ _ _ (by omega), take_writeBytes _ _ _ _ (by omega),
    take_writeBytes _ _ _ _ (by omega), take_writeBytes _ _ _ _ (by omega),
    writeBytes_zero]
  have h16 : (16 : ℕ) = otMagic.length := by decide
  rw [h16]
  exact take_overwrite_self _ _ (by rw [List.length_replicate]; decide)

theorem byteAt_otBytes_low (w : OTState) (i : ℕ) (h : i < 830) :
    byteAt (otBytes w) i = byteAt (otPre w) i := by
  rw [otBytes]
  exact byteAt_writeBytes_lt _ _ _ _ (by omega)

/-- C2: every `.ot` file written by `OctatrackWriter.write` is exactly
832 bytes, starts with the 16-byte header magic, and stores at offset
0x33E a big-endian uint16 equal to the sum of the file's bytes at
offsets 0x10 through 0x33D inclusive, taken mod 65536.  The hypothesis
`w.slices.length ≤ 64` is the invariant `add_slice` maintains (and is
needed: with more slices `struct.pack_into` would raise and no file
would be written). -/
theorem c2_ot_file_layout (w : OTState) (hs : w.slices.length ≤ 64) :
    (otBytes w).length = 832 ∧
    (otBytes w).take 16 = otMagic ∧
    be16val (otBytes w) 830 =
      (((List.range' 16 814).map fun i => byteAt (otBytes w) i).sum) % 65536 := by
  refine ⟨otBytes_length_eq w, ?_, ?_⟩
  · rw [otBytes, take_writeBytes _ _ _ _ (by omega)]
    exact otPre_take16 w
  · have hlen : 830 + (be16 (calcChecksum (otPre w))).length ≤ (otPre w).length := by
      rw [otPre_length]; simp [be16]
    have hb0 : byteAt (otBytes w) 830 = calcChecksum (otPre w) / 256 % 256 := by
      have := byteAt_writeBytes_in (otPre w) 830 (be16 (calcChecksum (otPre w))) 0
        (by simp [be16]) hlen
      simpa [otBytes, be16] using this
    have hb1 : byteAt (otBytes w) 831 = calcChecksum (otPre w) % 256 := by
      have := byteAt_writeBytes_in (otPre w) 830 (be16 (calcChecksum (otPre w))) 1
        (by simp [be16]) hlen
      simpa [otBytes, be16] using this
    have hsum : ((List.range' 16 814).map fun i => byteAt (otBytes w) i) =
        ((List.range' 16 814).map fun i => byteAt (otPre w) i) := by
      apply List.map_congr_left
      intro i hi
      rcases List.mem_range'.1 hi with ⟨j, hj, rfl⟩
      exact byteAt_otBytes_low w _ (by omega)
    have hck : calcChecksum (otPre w) < 65536 := Nat.mod_lt _ (by omega)
    rw [be16val, hb0, hb1, hsum]
    have : (((List.range' 16 814).map fun i => byteAt (otPre w) i).sum) % 65536 =
        calcChecksum (otPre w) := rfl
    rw [this]
    omega

/-- Witness for C2 at a concrete writer state. -/
theorem c2_ot_file_layout_witness :
    (otBytes (otWriterInit 44100 44100)).length = 832 ∧
    (otBytes (otWriterInit 44100 44100)).take 16 = otMagic ∧
    be16val (otBytes (otWriterInit 44100 44100)) 830 =
      (((List.range' 16 814).map fun i => byteAt (otBytes (otWriterInit 44100 44100)) i).sum) % 65536 :=
  c2_ot_file_layout (otWriterInit 44100 44100) (by decide)

theorem be32val_writeBytes_lt (d : List ℕ) (off2 : ℕ) (bs : List ℕ) (off : ℕ)
    (h : off + 4 ≤ off2) :
    be32val (writeBytes d off2 bs) off = be32val d off := by
  unfold be32val
  rw [byteAt_writeBytes_lt _ _ _ _ (by omega), byteAt_writeBytes_lt _ _ _ _ (by omega),
    byteAt_writeBytes_lt _ _ _ _ (by omega), byteAt_writeBytes_lt _ _ _ _ (by omega)]

theorem be32val_writeSlices_lt (L : List OTSlice) (d : List ℕ) (off2 off : ℕ)
    (h : off + 4 ≤ off2) :
    be32val (writeSlices d off2 L) off = be32val d off := by
  unfold be32val
  rw [byteAt_writeSlices_lt _ _ _ _ (by omega), byteAt_writeSlices_lt _ _ _ _ (by omega),
    byteAt_writeSlices_lt _ _ _ _ (by omega), byteAt_writeSlices_lt _ _ _ _ (by omega)]

theorem be16val_writeBytes_lt (d : List ℕ) (off2 : ℕ) (bs : List ℕ) (off : ℕ)
    (h : off + 2 ≤ off2) :
    be16val (writeBytes d off2 bs) off = be16val d off := by
  unfold be16val
  rw [byteAt_writeBytes_lt _ _ _ _ (by omega), byteAt_writeBytes_lt _ _ _ _ (by omega)]

theorem be16val_writeSlices_lt (L : List OTSlice) (d : List ℕ) (off2 off : ℕ)
    (h : off + 2 ≤ off2) :
    be16val (writeSlices d off2 L) off = be16val d off := by
  unfold be16val
  rw [byteAt_writeSlices_lt _ _ _ _ (by omega), byteAt_writeSlices_lt _ _ _ _ (by omega)]

theorem be32val_field (d : List ℕ) (off v : ℕ) (hv : v < 4294967296)
    (h2 : off + 4 ≤ d.length) :
    be32val (writeBytes d off (be32 v)) off = v := by
  have h0 := byteAt_writeBytes_in d off (be32 v) 0 (by simp [be32]) (by simpa [be32] using h2)
  have h1 := byteAt_writeBytes_in d off (be32 v) 1 (by simp [be32]) (by simpa [be32] using h2)
  have h2' := byteAt_writeBytes_in d off (be32 v) 2 (by simp [be32]) (by simpa [be32] using h2)
  have h3 := byteAt_writeBytes_in d off (be32 v) 3 (by simp [be32]) (by simpa [be32] using h2)
  rw [Nat.add_zero] at h0
  have r0 : byteAt (be32 v) 0 = v / 16777216 % 256 := rfl
  have r1 : byteAt (be32 v) 1 = v / 65536 % 256 := rfl
  have r2 : byteAt (be32 v) 2 = v / 256 % 256 := rfl
  have r3 : byteAt (be32 v) 3 = v % 256 := rfl
  unfold be32val
  rw [h0, h1, h2', h3, r0, r1, r2, r3]
  omega

theorem be16val_field (d : List ℕ) (off v : ℕ) (hv : v < 65536)
    (h2 : off + 2 ≤ d.length) :
    be16val (writeBytes d off (be16 v)) off = v := by
  have h0 := byteAt_writeBytes_in d off (be16 v) 0 (by simp [be16]) (by simpa [be16] using h2)
  have h1 := byteAt_writeBytes_in d off (be16 v) 1 (by simp [be16]) (by simpa [be16] using h2)
  rw [Nat.add_zero] at h0
  have r0 : byteAt (be16 v) 0 = v / 256 % 256 := rfl
  have r1 : byteAt (be16 v) 1 = v % 256 := rfl
  unfold be16val
  rw [h0, h1, r0, r1]
  omega

theorem be32val_otBytes_low (w : OTState) (off : ℕ) (h : off + 4 ≤ 830) :
    be32val (otBytes w) off = be32val (otPre w) off := by
  unfold be32val
  rw [byteAt_otBytes_low _ _ (by omega), byteAt_otBytes_low _ _ (by omega),
    byteAt_otBytes_low _ _ (by omega), byteAt_otBytes_low _ _ (by omega)]

theorem be16val_otBytes_low (w : OTState) (off : ℕ) (h : off + 2 ≤ 830) :
    be16val (otBytes w) off = be16val (otPre w) off := by
  unfold be16val
  rw [byteAt_otBytes_low _ _ (by omega), byteAt_otBytes_low _ _ (by omega)]

theorem stackLen1 (w : OTState) :
    (writeBytes (List.replicate 832 0) 0 otMagic).length = 832 := by
  rw [length_writeBytes, List.length_replicate]

theorem stackLen2 (w : OTState) :
    (writeBytes (writeBytes (List.replicate 832 0) 0 otMagic)
      0x10 (be32 (tempoValue w))).length = 832 := by
  rw [length_writeBytes]; exact stackLen1 w

theorem stackLen3 (w : OTState) :
    (writeBytes (writeBytes (writeBytes (List.replicate 832 0) 0 otMagic)
      0x10 (be32 (tempoValue w))) 0x14 (be32 (trimLengthValue w))).length = 832 := by
  rw [length_writeBytes]; exact stackLen2 w

theorem stackLen4 (w : OTState) :
    (writeBytes (writeBytes (writeBytes (writeBytes (List.replicate 832 0) 0 otMagic)
      0x10 (be32 (tempoValue w))) 0x14 (be32 (trimLengthValue w)))
      0x18 (be32 (trimLengthValue w))).length = 832 := by
  rw [length_writeBytes]; exact stackLen3 w

theorem stackLen5 (w : OTState) :
    (writeBytes (writeBytes (writeBytes (writeBytes (writeBytes (List.replicate 832 0) 0 otMagic)
      0x10 (be32 (tempoValue w))) 0x14 (be32 (trimLengthValue w)))
      0x18 (be32 (trimLengthValue w))) 0x1C (be32 w.stretch)).length = 832 := by
  rw [length_writeBytes]; exact stackLen4 w

theorem stackLen6 (w : OTState) :
    (writeBytes (writeBytes (writeBytes (writeBytes (writeBytes (writeBytes
      (List.replicate 832 0) 0 otMagic)
      0x10 (be32 (tempoValue w))) 0x14 (be32 (trimLengthValue w)))
      0x18 (be32 (trimLengthValue w))) 0x1C (be32 w.stretch))
      0x20 (be32 w.loopType)).length = 832 := by
  rw [length_writeBytes]; exact stackLen5 w

theorem stackLen7 (w : OTState) :
    (writeBytes (writeBytes (writeBytes (writeBytes (writeBytes (writeBytes (writeBytes
      (List.replicate 832 0) 0 otMagic)
      0x10 (be32 (tempoValue w))) 0x14 (be32 (trimLengthValue w)))
      0x18 (be32 (trimLengthValue w))) 0x1C (be32 w.stretch))
      0x20 (be32 w.loopType)) 0x24 (be16 (gainValue w))).length = 832 := by
  rw [length_writeBytes]; exact stackLen6 w

/-- The tempo field at 0x10 of the written file holds `int(tempo * 6)`
as big-endian uint32 (whenever that value is in `pack` range). -/
theorem otBytes_tempo_field (w : OTState) (hv : tempoValue w < 4294967296) :
    be32val (otBytes w) 0x10 = tempoValue w := by
  rw [be32val_otBytes_low w 0x10 (by omega)]
  unfold otPre
  rw [be32val_writeSlices_lt _ _ _ _ (by omega), be32val_writeBytes_lt _ _ _ _ (by omega),
    be32val_writeBytes_lt _ _ _ _ (by omega), be32val_writeBytes_lt _ _ _ _ (by omega),
    be32val_writeBytes_lt _ _ _ _ (by omega), be32val_writeBytes_lt _ _ _ _ (by omega),
    be32val_writeBytes_lt _ _ _ _ (by omega), be32val_writeBytes_lt _ _ _ _ (by omega),
    be32val_writeBytes_lt _ _ _ _ (by omega), be32val_writeBytes_lt _ _ _ _ (by omega),
    be32val_writeBytes_lt _ _ _ _ (by omega)]
  exact be32val_field _ 0x10 _ hv (by rw [stackLen1 w]; omega)

/-- The stretch field at 0x1C holds `self.stretch` as big-endian uint32. -/
theorem otBytes_stretch_field (w : OTState) (hv : w.stretch < 4294967296) :
    be32val (otBytes w) 0x1C = w.stretch := by
  rw [be32val_otBytes_low w 0x1C (by omega)]
  unfold otPre
  rw [be32val_writeSlices_lt _ _ _ _ (by omega), be32val_writeBytes_lt _ _ _ _ (by omega),
    be32val_writeBytes_lt _ _ _ _ (by omega), be32val_writeBytes_lt _ _ _ _ (by omega),
    be32val_writeBytes_lt _ _ _ _ (by omega), be32val_writeBytes_lt _ _ _ _ (by omega),
    be32val_writeBytes_lt _ _ _ _ (by omega), be32val_writeBytes_lt _ _ _ _ (by omega)]
  exact be32val_field _ 0x1C _ hv (by rw [stackLen4 w]; omega)

/-- The loop-type field at 0x20 holds `self.loop_type` as big-endian uint32. -/
theorem otBytes_loopType_field (w : OTState) (hv : w.loopType < 4294967296) :
    be32val (otBytes w) 0x20 = w.loopType := by
  rw [be32val_otBytes_low w 0x20 (by omega)]
  unfold otPre
  rw [be32val_writeSlices_lt _ _ _ _ (by omega), be32val_writeBytes_lt _ _ _ _ (by omega),
    be32val_writeBytes_lt _ _ _ _ (by omega), be32val_writeBytes_lt _ _ _ _ (by omega),
    be32val_writeBytes_lt _ _ _ _ (by omega), be32val_writeBytes_lt _ _ _ _ (by omega),
    be32val_writeBytes_lt _ _ _ _ (by omega)]
  exact be32val_field _ 0x20 _ hv (by rw [stackLen5 w]; omega)

/-- The gain field at 0x24 holds `int(gain + 48)` as big-endian uint16. -/
theorem otBytes_gain_field (w : OTState) (hv : gainValue w < 65536) :
    be16val (otBytes w) 0x24 = gainValue w := by
  rw [be16val_otBytes_low w 0x24 (by omega)]
  unfold otPre
  rw [be16val_writeSlices_lt _ _ _ _ (by omega), be16val_writeBytes_lt _ _ _ _ (by omega),
    be16val_writeBytes_lt _ _ _ _ (by omega), be16val_writeBytes_lt _ _ _ _ (by omega),
    be16val_writeBytes_lt _ _ _ _ (by omega), be16val_writeBytes_lt _ _ _ _ (by omega)]
  exact be16val_field _ 0x24 _ hv (by rw [stackLen6 w]; omega)

/-- A single byte written at `off` is read back at `off`. -/
theorem byteAt_writeBytes_self0 (d : List ℕ) (off b : ℕ) (h2 : off + 1 ≤ d.length) :
    byteAt (writeBytes d off [b]) off = b := by
  have h := byteAt_writeBytes_in d off [b] 0 (by simp) (by simpa using h2)
  rw [Nat.add_zero] at h
  simpa using h

/-- The quantize byte at 0x26 holds `self.quantize`. -/
theorem otBytes_quantize_field (w : OTState) :
    byteAt (otBytes w) 0x26 = w.quantize := by
  rw [byteAt_otBytes_low w 0x26 (by omega)]
  unfold otPre
  rw [byteAt_writeSlices_lt _ _ _ _ (by omega), byteAt_writeBytes_lt _ _ _ _ (by omega),
    byteAt_writeBytes_lt _ _ _ _ (by omega), byteAt_writeBytes_lt _ _ _ _ (by omega),
    byteAt_writeBytes_lt _ _ _ _ (by omega)]
  exact byteAt_writeBytes_self0 _ 0x26 _ (by rw [stackLen7 w]; omega)

theorem addSlicesLoop_fields (ps : List (ℕ × ℕ)) (w w1 : OTState) (exc : Option PyExc)
    (h : addSlicesLoop w ps = (exc, w1)) :
    w1.sampleRate = w.sampleRate ∧ w1.totalSamples = w.totalSamples ∧
    w1.tempo = w.tempo ∧ w1.gain = w.gain ∧ w1.loopType = w.loopType ∧
    w1.stretch = w.stretch ∧ w1.quantize = w.quantize := by
  induction ps generalizing w with
  | nil =>
    rw [addSlicesLoop] at h
    cases h
    exact ⟨rfl, rfl, rfl, rfl, rfl, rfl, rfl⟩
  | cons p rest ih =>
    rw [addSlicesLoop, addSlice] at h
    by_cases hc : 64 ≤ w.slices.length
    · rw [if_pos hc] at h
      cases h
      exact ⟨rfl, rfl, rfl, rfl, rfl, rfl, rfl⟩
    · rw [if_neg hc] at h
      have h2 : addSlicesLoop
          { w with slices := w.slices ++ [⟨p.1, p.2, 4294967295⟩] } rest = (exc, w1) := h
      exact ih { w with slices := w.slices ++ [⟨p.1, p.2, 4294967295⟩] } h2

theorem addSlicesLoop_len (ps : List (ℕ × ℕ)) (w w1 : OTState)
    (hw : w.slices.length ≤ 64) (h : addSlicesLoop w ps = (none, w1)) :
    w1.slices.length ≤ 64 := by
  induction ps generalizing w with
  | nil =>
    rw [addSlicesLoop] at h
    cases h
    exact hw
  | cons p rest ih =>
    rw [addSlicesLoop, addSlice] at h
    by_cases hc : 64 ≤ w.slices.length
    · rw [if_pos hc] at h
      cases h
    · rw [if_neg hc] at h
      have h2 : addSlicesLoop
          { w with slices := w.slices ++ [⟨p.1, p.2, 4294967295⟩] } rest = (none, w1) := h
      refine ih _ ?_ h2
      simp
      omega

/-- C5 (amended): the tempo field written at 0x10 equals
`int(tempo_bpm * 6)` — truncation toward zero, not rounding — encoded
big-endian (stated for tempo values in the uint32 `pack` range). -/
theorem c5_tempo_field_truncated (w : OTState) (h0 : 0 ≤ w.tempo)
    (h1 : w.tempo * 6 < 4294967296) :
    be32val (otBytes w) 0x10 = (pyIntTrunc (w.tempo * 6)).toNat := by
  apply otBytes_tempo_field
  unfold tempoValue pyIntTrunc
  rw [if_pos (mul_nonneg h0 (by norm_num))]
  have hf : ⌊w.tempo * 6⌋ < (4294967296 : ℤ) := by
    rw [Int.floor_lt]
    exact_mod_cast h1
  omega

/-- Witness for C5 (amended) at the default tempo 120 BPM: the field
holds 720. -/
theorem c5_tempo_field_truncated_witness :
    be32val (otBytes (otWriterInit 44100 44100)) 0x10 = 720 := by
  have h := c5_tempo_field_truncated (otWriterInit 44100 44100)
    (by norm_num [otWriterInit]) (by norm_num [otWriterInit])
  rw [h, show (otWriterInit 44100 44100).tempo * 6 = ((720 : ℕ) : ℚ) from by
    norm_num [otWriterInit], pyIntTrunc_natCast]
  simp

/-- C5 counterexample: at `tempo_bpm = 100.125` the code writes
`int(100.125 * 6) = int(600.75) = 600`, while the claimed
`round(tempo_bpm * 6)` is `601`. -/
theorem c5_tempo_field_not_rounded :
    be32val (otBytes otTempo100125) 0x10 = 600 ∧
    round (otTempo100125.tempo * 6) = 601 ∧ (600 : ℕ) ≠ 601 := by
  have hval : pyIntTrunc (otTempo100125.tempo * 6) = 600 := by
    rw [pyIntTrunc, if_pos (by norm_num [otTempo100125])]
    rw [show otTempo100125.tempo * 6 = ((2403 : ℤ) : ℚ) / ((4 : ℕ) : ℚ) from by
      norm_num [otTempo100125]]
    rw [Rat.floor_intCast_div_natCast]
    decide
  refine ⟨?_, ?_, by decide⟩
  · have h := otBytes_tempo_field otTempo100125 (by rw [tempoValue, hval]; omega)
    rw [h, tempoValue, hval]
    rfl
  · rw [round_eq]
    rw [show otTempo100125.tempo * 6 + 1 / 2 = ((2405 : ℤ) : ℚ) / ((4 : ℕ) : ℚ) from by
      norm_num [otTempo100125]]
    rw [Rat.floor_intCast_div_natCast]
    decide

/-- C10: any `.ot` file produced through the assembly pipeline
(`_generate_ot_file`, which passes only `output_path`, `sample_rate`
and `total_samples` to the writer) encodes the constructor defaults:
tempo field 720 (= 120 BPM x 6) at 0x10, stretch 0 at 0x1C, loop type
0 at 0x20, gain 48 (= 0 dB + 48) at 0x24, quantize 0 at 0x26. -/
theorem c10_pipeline_ot_defaults (sampleRate totalSamples : ℕ) (cues : List ℕ)
    (bs : List ℕ) (h : generateOtFile sampleRate totalSamples cues = some bs) :
    be32val bs 0x10 = 720 ∧ be32val bs 0x1C = 0 ∧ be32val bs 0x20 = 0 ∧
    be16val bs 0x24 = 48 ∧ byteAt bs 0x26 = 0 := by
  unfold generateOtFile at h
  rcases hres : addSlicesLoop (otWriterInit sampleRate totalSamples) (cues.zip cues.tail)
    with ⟨exc, w⟩
  rw [hres] at h
  cases exc with
  | some e => simp at h
  | none =>
    have hbs : bs = otBytes w := by
      have h2 : some (otBytes w) = some bs := h
      exact (Option.some.inj h2).symm
    subst hbs
    obtain ⟨hsr, hts, htempo, hgain, hloop, hstretch, hquant⟩ :=
      addSlicesLoop_fields _ _ _ _ hres
    have ht : tempoValue w = 720 := by
      rw [tempoValue, htempo]
      rw [show (otWriterInit sampleRate totalSamples).tempo * 6 = ((720 : ℕ) : ℚ) from by
        norm_num [otWriterInit]]
      rw [pyIntTrunc_natCast]
      rfl
    have hst : w.stretch = 0 := hstretch
    have hlt : w.loopType = 0 := hloop
    have hg : gainValue w = 48 := by
      rw [gainValue, hgain]
      rfl
    have hq : w.quantize = 0 := hquant
    refine ⟨?_, ?_, ?_, ?_, ?_⟩
    · exact (otBytes_tempo_field w (by rw [ht]; omega)).trans ht
    · exact (otBytes_stretch_field w (by rw [hst]; omega)).trans hst
    · exact (otBytes_loopType_field w (by rw [hlt]; omega)).trans hlt
    · exact (otBytes_gain_field w (by rw [hg]; omega)).trans hg
    · exact (otBytes_quantize_field w).trans hq

/-- Witness for C10 at a concrete pipeline run. -/
theorem c10_pipeline_ot_defaults_witness :
    be32val (otBytes otPipelineTwoCues) 0x10 = 720 ∧
    be32val (otBytes otPipelineTwoCues) 0x1C = 0 ∧
    be32val (otBytes otPipelineTwoCues) 0x20 = 0 ∧
    be16val (otBytes otPipelineTwoCues) 0x24 = 48 ∧
    byteAt (otBytes otPipelineTwoCues) 0x26 = 0 := by
  apply c10_pipeline_ot_defaults 44100 88200 [44, 500]
  have hstep : addSlicesLoop (otWriterInit 44100 88200) ([44, 500].zip [44, 500].tail) =
      (none, otPipelineTwoCues) := by decide
  unfold generateOtFile
  rw [hstep]

theorem pyRound_zero : pyRound 0 = 0 := by
  simpa using pyRound_natCast 0

/-- C6 (amended): whenever `total_frames` and `sample_rate` are both
nonzero, the bars value equals the claimed formula, is at least 0.25
and is a natural multiple of 0.25.  (When either is zero the code
returns 1.0 instead of the formula's 0.25 — see the counterexample.) -/
theorem c6_bars_formula (w : OTState) (h1 : w.totalSamples ≠ 0) (h2 : w.sampleRate ≠ 0) :
    calcBarsLength w = specBars w.totalSamples w.sampleRate w.tempo ∧
    (1 / 4 : ℚ) ≤ calcBarsLength w ∧
    ∃ k : ℕ, 1 ≤ k ∧ calcBarsLength w = (k : ℚ) / 4 := by
  have hcond : ¬(w.totalSamples = 0 ∨ w.sampleRate = 0) := by
    intro hc
    rcases hc with hc | hc
    · exact h1 hc
    · exact h2 hc
  have heq : calcBarsLength w = specBars w.totalSamples w.sampleRate w.tempo := by
    rw [calcBarsLength, if_neg hcond, specBars]
  refine ⟨heq, ?_, ?_⟩
  · rw [calcBarsLength, if_neg hcond]
    exact le_max_left _ _
  · rw [calcBarsLength, if_neg hcond]
    set m : ℤ := pyRound ((((w.totalSamples : ℚ) / (w.sampleRate : ℚ)) * (w.tempo / 60)) / 4 * 4)
    by_cases hm : 1 ≤ m
    · refine ⟨m.toNat, by omega, ?_⟩
      have hmn : ((m.toNat : ℕ) : ℚ) = (m : ℚ) := by
        exact_mod_cast Int.toNat_of_nonneg (by omega)
      rw [hmn, max_eq_right]
      apply div_le_div_of_nonneg_right ?_ (by norm_num)
      exact_mod_cast hm
    · refine ⟨1, le_refl 1, ?_⟩
      rw [max_eq_left]
      · norm_num
      · apply div_le_div_of_nonneg_right ?_ (by norm_num)
        have hm0 : m ≤ 1 := by omega
        exact_mod_cast hm0

/-- Witness for C6 (amended): 4 seconds at 44100 Hz, 120 BPM. -/
theorem c6_bars_formula_witness :
    calcBarsLength (otWriterInit 44100 176400) =
      specBars (otWriterInit 44100 176400).totalSamples
        (otWriterInit 44100 176400).sampleRate (otWriterInit 44100 176400).tempo ∧
    (1 / 4 : ℚ) ≤ calcBarsLength (otWriterInit 44100 176400) ∧
    ∃ k : ℕ, 1 ≤ k ∧ calcBarsLength (otWriterInit 44100 176400) = (k : ℚ) / 4 :=
  c6_bars_formula (otWriterInit 44100 176400) (by decide) (by decide)

/-- C6 counterexample: at `total_frames = 0` (sample rate 44100, tempo
120) the code returns 1.0 bars while the claimed formula gives the
0.25 floor. -/
theorem c6_bars_zero_frames :
    calcBarsLength otZeroFrames = 1 ∧
    specBars otZeroFrames.totalSamples otZeroFrames.sampleRate otZeroFrames.tempo = 1 / 4 ∧
    (1 : ℚ) ≠ 1 / 4 := by
  refine ⟨by rw [calcBarsLength, if_pos (by left; rfl)], ?_, by norm_num⟩
  rw [specBars]
  rw [show (((otZeroFrames.totalSamples : ℚ) / (otZeroFrames.sampleRate : ℚ)) *
      (otZeroFrames.tempo / 60)) / 4 * 4 = 0 from by norm_num [otZeroFrames]]
  rw [pyRound_zero]
  norm_num

/-- C7 (amended): with 64 slices stored, `add_slice` raises
`ValueError` (not `OctatrackError`), performs no file I/O (the function
never writes), and leaves the stored slice list unchanged; with fewer
than 64 slices it succeeds and appends the new slice. -/
theorem c7_add_slice_cap (w : OTState) (s e : ℕ) (lp : Option ℕ) :
    (64 ≤ w.slices.length → addSlice w s e lp = (Except.error PyExc.valueError, w)) ∧
    (w.slices.length < 64 →
      addSlice w s e lp =
        (Except.ok (), { w with slices := w.slices ++ [⟨s, e, lp.getD 4294967295⟩] })) := by
  constructor
  · intro h
    rw [addSlice, if_pos h]
  · intro h
    rw [addSlice, if_neg (by omega)]

/-- Witness for C7 (amended): a full writer rejects a 65th slice with
`ValueError` and is left unchanged; an empty writer accepts a slice. -/
theorem c7_add_slice_cap_witness :
    addSlice otFull64 64000 65000 none = (Except.error PyExc.valueError, otFull64) ∧
    addSlice (otWriterInit 48000 96000) 0 100 none =
      (Except.ok (),
        { otWriterInit 48000 96000 with slices := [⟨0, 100, 4294967295⟩] }) := by
  refine ⟨(c7_add_slice_cap otFull64 64000 65000 none).1 (by decide), ?_⟩
  have h := (c7_add_slice_cap (otWriterInit 48000 96000) 0 100 none).2 (by decide)
  rw [h]
  rfl

/-- C7 counterexample: the 65th `add_slice` raises `ValueError`, which
is not the `OctatrackError` the claim names (that class exists in
`exceptions.py` but the writer never raises it). -/
theorem c7_65th_slice_raises_valueerror_not_octatrackerror :
    (addSlice otFull64 64000 65000 none).1 = Except.error PyExc.valueError ∧
    (addSlice otFull64 64000 65000 none).1 ≠ Except.error PyExc.octatrackError ∧
    (addSlice otFull64 64000 65000 none).2 = otFull64 := by
  refine ⟨?_, ?_, ?_⟩ <;> rw [addSlice, if_pos (by decide)]
  intro hc
  exact PyExc.noConfusion (Except.error.inj hc)

theorem le32_length (v : ℕ) : (le32 v).length = 4 := rfl

theorem cueRecord_length (a p : ℕ) : (cueRecord a p).length = 24 := rfl

theorem cueFold_eq (ps : List ℕ) (k : ℕ) (acc : List ℕ) :
    (List.enumFrom k ps).foldl (fun acc ip => acc ++ cueRecord (ip.1 + 1) ip.2) acc =
      acc ++ recordsFlat ps (k + 1) := by
  induction ps generalizing k acc with
  | nil => simp [recordsFlat]
  | cons p rest ih =>
    have he : List.enumFrom k (p :: rest) = (k, p) :: List.enumFrom (k + 1) rest := rfl
    rw [he, List.foldl_cons, ih, recordsFlat, List.append_assoc]

theorem cueChunkData_eq (ps : List ℕ) :
    cueChunkData ps = le32 ps.length ++ recordsFlat ps 1 := by
  rw [cueChunkData]
  have he : List.enum ps = List.enumFrom 0 ps := rfl
  rw [he, cueFold_eq]

theorem recordsFlat_length (ps : List ℕ) (k : ℕ) :
    (recordsFlat ps k).length = 24 * ps.length := by
  induction ps generalizing k with
  | nil => rfl
  | cons p rest ih =>
    rw [recordsFlat, List.length_append, cueRecord_length, ih, List.length_cons]
    ring

theorem cueChunkData_length (ps : List ℕ) :
    (cueChunkData ps).length = 4 + 24 * ps.length := by
  rw [cueChunkData_eq, List.length_append, le32_length, recordsFlat_length]

theorem byteAt_append_off (xs l : List ℕ) (i : ℕ) (h : xs.length ≤ i) :
    byteAt (xs ++ l) i = byteAt l (i - xs.length) := by
  induction xs generalizing i with
  | nil => simp [byteAt]
  | cons x xs ih =>
    cases i with
    | zero => simp at h
    | succ i =>
      have : byteAt ((x :: xs) ++ l) (i + 1) = byteAt (xs ++ l) i := rfl
      rw [this, ih i (by simpa using h)]
      congr 1
      simp

theorem byteAt_append_left (xs l : List ℕ) (i : ℕ) (h : i < xs.length) :
    byteAt (xs ++ l) i = byteAt xs i := by
  induction xs generalizing i with
  | nil => simp at h
  | cons x xs ih =>
    cases i with
    | zero => rfl
    | succ i => exact ih i (by simpa using h)

theorem le32val_append_off (xs l : List ℕ) (off : ℕ) (h : xs.length ≤ off) :
    le32val (xs ++ l) off = le32val l (off - xs.length) := by
  unfold le32val
  rw [byteAt_append_off _ _ _ (by omega), byteAt_append_off _ _ _ (by omega),
    byteAt_append_off _ _ _ (by omega), byteAt_append_off _ _ _ (by omega),
    show off + 1 - xs.length = off - xs.length + 1 from by omega,
    show off + 2 - xs.length = off - xs.length + 2 from by omega,
    show off + 3 - xs.length = off - xs.length + 3 from by omega]

theorem le32val_append_left (xs l : List ℕ) (off : ℕ) (h : off + 4 ≤ xs.length) :
    le32val (xs ++ l) off = le32val xs off := by
  unfold le32val
  rw [byteAt_append_left _ _ _ (by omega), byteAt_append_left _ _ _ (by omega),
    byteAt_append_left _ _ _ (by omega), byteAt_append_left _ _ _ (by omega)]

theorem le32val_le32_first (v : ℕ) (rest : List ℕ) (hv : v < 4294967296) :
    le32val (le32 v ++ rest) 0 = v := by
  have h0 : byteAt (le32 v ++ rest) 0 = v % 256 := rfl
  have h1 : byteAt (le32 v ++ rest) 1 = v / 256 % 256 := rfl
  have h2 : byteAt (le32 v ++ rest) 2 = v / 65536 % 256 := rfl
  have h3 : byteAt (le32 v ++ rest) 3 = v / 16777216 % 256 := rfl
  unfold le32val
  rw [show (0 : ℕ) + 1 = 1 from rfl, show (0 : ℕ) + 2 = 2 from rfl,
    show (0 : ℕ) + 3 = 3 from rfl, h0, h1, h2, h3]
  omega

theorem le32val_le32 (v : ℕ) (hv : v < 4294967296) : le32val (le32 v) 0 = v := by
  have h := le32val_le32_first v [] hv
  simpa using h

theorem recordsFlat_index (ps : List ℕ) (k i : ℕ) (hi : i < ps.length) :
    ∃ rest : List ℕ,
      ∀ j : ℕ, byteAt (recordsFlat ps k) (24 * i + j) =
        byteAt (cueRecord (k + i) (ps.getD i 0) ++ rest) j := by
  induction ps generalizing k i with
  | nil => simp at hi
  | cons p more ih =>
    cases i with
    | zero =>
      refine ⟨recordsFlat more (k + 1), fun j => ?_⟩
      rw [recordsFlat]
      rw [show 24 * 0 + j = j from by omega]
      rw [show k + 0 = k from by omega]
      rfl
    | succ i =>
      obtain ⟨r2, hr⟩ := ih (k + 1) i (by simpa using hi)
      refine ⟨r2, fun j => ?_⟩
      rw [recordsFlat]
      rw [byteAt_append_off _ _ _ (by rw [cueRecord_length]; omega)]
      rw [show 24 * (i + 1) + j - (cueRecord k p).length = 24 * i + j from by
        rw [cueRecord_length]; ring_nf; omega]
      rw [hr j]
      rw [show k + 1 + i = k + (i + 1) from by omega]
      rfl

theorem cueRecord_field_id (a p : ℕ) (ha : a < 4294967296) :
    le32val (cueRecord a p) 0 = a :=
  le32val_le32_first a _ ha

theorem cueRecord_field_position (a p : ℕ) (hp : p < 4294967296) :
    le32val (cueRecord a p) 4 = p := by
  have h0 : byteAt (cueRecord a p) 4 = p % 256 := rfl
  have h1 : byteAt (cueRecord a p) 5 = p / 256 % 256 := rfl
  have h2 : byteAt (cueRecord a p) 6 = p / 65536 % 256 := rfl
  have h3 : byteAt (cueRecord a p) 7 = p / 16777216 % 256 := rfl
  unfold le32val
  rw [show (4 : ℕ) + 1 = 5 from rfl, show (4 : ℕ) + 2 = 6 from rfl,
    show (4 : ℕ) + 3 = 7 from rfl, h0, h1, h2, h3]
  omega

theorem cueRecord_field_tag (a p : ℕ) :
    byteAt (cueRecord a p) 8 = 100 ∧ byteAt (cueRecord a p) 9 = 97 ∧
    byteAt (cueRecord a p) 10 = 116 ∧ byteAt (cueRecord a p) 11 = 97 :=
  ⟨rfl, rfl, rfl, rfl⟩

theorem cueRecord_field_zeros (a p : ℕ) :
    le32val (cueRecord a p) 12 = 0 ∧ le32val (cueRecord a p) 16 = 0 := by
  have h12 : byteAt (cueRecord a p) 12 = 0 := rfl
  have h13 : byteAt (cueRecord a p) 13 = 0 := rfl
  have h14 : byteAt (cueRecord a p) 14 = 0 := rfl
  have h15 : byteAt (cueRecord a p) 15 = 0 := rfl
  have h16 : byteAt (cueRecord a p) 16 = 0 := rfl
  have h17 : byteAt (cueRecord a p) 17 = 0 := rfl
  have h18 : byteAt (cueRecord a p) 18 = 0 := rfl
  have h19 : byteAt (cueRecord a p) 19 = 0 := rfl
  constructor
  · unfold le32val
    rw [show (12 : ℕ) + 1 = 13 from rfl, show (12 : ℕ) + 2 = 14 from rfl,
      show (12 : ℕ) + 3 = 15 from rfl, h12, h13, h14, h15]
  · unfold le32val
    rw [show (16 : ℕ) + 1 = 17 from rfl, show (16 : ℕ) + 2 = 18 from rfl,
      show (16 : ℕ) + 3 = 19 from rfl, h16, h17, h18, h19]

theorem cueRecord_field_sampleOffset (a p : ℕ) (hp : p < 4294967296) :
    le32val (cueRecord a p) 20 = p := by
  have h0 : byteAt (cueRecord a p) 20 = p % 256 := rfl
  have h1 : byteAt (cueRecord a p) 21 = p / 256 % 256 := rfl
  have h2 : byteAt (cueRecord a p) 22 = p / 65536 % 256 := rfl
  have h3 : byteAt (cueRecord a p) 23 = p / 16777216 % 256 := rfl
  unfold le32val
  rw [show (20 : ℕ) + 1 = 21 from rfl, show (20 : ℕ) + 2 = 22 from rfl,
    show (20 : ℕ) + 3 = 23 from rfl, h0, h1, h2, h3]
  omega

theorem byteAt_cueChunk_records (ps : List ℕ) (m : ℕ) :
    byteAt (cueChunk ps) (12 + m) = byteAt (recordsFlat ps 1) m := by
  rw [cueChunk]
  rw [byteAt_append_off _ _ _ (by
    simp only [List.length_append, le32_length, List.length_cons, List.length_nil]
    omega)]
  simp only [List.length_append, le32_length, List.length_cons, List.length_nil]
  rw [show 12 + m - (0 + 1 + 1 + 1 + 1 + 4) = 4 + m from by omega]
  rw [cueChunkData_eq]
  rw [byteAt_append_off _ _ _ (by rw [le32_length]; omega), le32_length]
  rw [show 4 + m - 4 = m from by omega]

theorem le32val_cueChunk_record (ps : List ℕ) (i c : ℕ) (hi : i < ps.length)
    (hc : c + 4 ≤ 24) :
    le32val (cueChunk ps) (12 + (24 * i + c)) =
      le32val (cueRecord (1 + i) (ps.getD i 0)) c := by
  obtain ⟨rest, hr⟩ := recordsFlat_index ps 1 i hi
  unfold le32val
  rw [show 12 + (24 * i + c) + 1 = 12 + (24 * i + (c + 1)) from by omega,
    show 12 + (24 * i + c) + 2 = 12 + (24 * i + (c + 2)) from by omega,
    show 12 + (24 * i + c) + 3 = 12 + (24 * i + (c + 3)) from by omega,
    byteAt_cueChunk_records, byteAt_cueChunk_records, byteAt_cueChunk_records,
    byteAt_cueChunk_records, hr c, hr (c + 1), hr (c + 2), hr (c + 3),
    byteAt_append_left _ _ _ (by rw [cueRecord_length]; omega),
    byteAt_append_left _ _ _ (by rw [cueRecord_length]; omega),
    byteAt_append_left _ _ _ (by rw [cueRecord_length]; omega),
    byteAt_append_left _ _ _ (by rw [cueRecord_length]; omega)]

theorem byteAt_cueChunk_record (ps : List ℕ) (i c : ℕ) (hi : i < ps.length)
    (hc : c < 24) :
    byteAt (cueChunk ps) (12 + (24 * i + c)) =
      byteAt (cueRecord (1 + i) (ps.getD i 0)) c := by
  obtain ⟨rest, hr⟩ := recordsFlat_index ps 1 i hi
  rw [byteAt_cueChunk_records, hr c,
    byteAt_append_left _ _ _ (by rw [cueRecord_length]; omega)]

/-- C3: the appended chunk is the ASCII tag `cue `, a little-endian
uint32 chunk size `4 + 24 * N`, a little-endian uint32 count `N`, and
one 24-byte record per cue point in ascending id order: cue_id `i + 1`,
position = frame offset, the ASCII bytes `data`, chunk_start 0,
block_start 0, sample_offset = the same frame offset, all little-endian
(stated for values in `pack`'s uint32 range). -/
theorem c3_cue_chunk_layout (ps : List ℕ)
    (hp : ∀ p ∈ ps, p < 4294967296) (hN : 4 + 24 * ps.length < 4294967296) :
    (cueChunk ps).length = 12 + 24 * ps.length ∧
    (cueChunk ps).take 4 = [99, 117, 101, 32] ∧
    le32val (cueChunk ps) 4 = 4 + 24 * ps.length ∧
    le32val (cueChunk ps) 8 = ps.length ∧
    ∀ i, i < ps.length →
      le32val (cueChunk ps) (12 + 24 * i) = i + 1 ∧
      le32val (cueChunk ps) (12 + 24 * i + 4) = ps.getD i 0 ∧
      byteAt (cueChunk ps) (12 + 24 * i + 8) = 100 ∧
      byteAt (cueChunk ps) (12 + 24 * i + 9) = 97 ∧
      byteAt (cueChunk ps) (12 + 24 * i + 10) = 116 ∧
      byteAt (cueChunk ps) (12 + 24 * i + 11) = 97 ∧
      le32val (cueChunk ps) (12 + 24 * i + 12) = 0 ∧
      le32val (cueChunk ps) (12 + 24 * i + 16) = 0 ∧
      le32val (cueChunk ps) (12 + 24 * i + 20) = ps.getD i 0 := by
  refine ⟨?_, ?_, ?_, ?_, ?_⟩
  · rw [cueChunk]
    simp only [List.length_append, le32_length, List.length_cons, List.length_nil,
      cueChunkData_length]
    omega
  · rfl
  · rw [cueChunk, le32val_append_left _ _ _ (by
      simp only [List.length_append, le32_length, List.length_cons, List.length_nil]
      omega)]
    rw [le32val_append_off _ _ _ (by simp only [List.length_cons, List.length_nil]; omega)]
    rw [show (4 : ℕ) - [99, 117, 101, 32].length = 0 from by
      simp only [List.length_cons, List.length_nil]]
    rw [le32val_le32 _ (by rw [cueChunkData_length]; omega)]
    exact cueChunkData_length ps
  · rw [cueChunk, le32val_append_off _ _ _ (by
      simp only [List.length_append, le32_length, List.length_cons, List.length_nil]
      omega)]
    simp only [List.length_append, le32_length, List.length_cons, List.length_nil]
    rw [show (8 : ℕ) - (0 + 1 + 1 + 1 + 1 + 4) = 0 from by omega]
    rw [cueChunkData_eq]
    exact le32val_le32_first _ _ (by omega)
  · intro i hi
    have hmem : ps.getD i 0 ∈ ps := by
      rw [List.getD_eq_getElem ps 0 hi]
      exact List.getElem_mem hi
    have hpi : ps.getD i 0 < 4294967296 := hp _ hmem
    have hid : 1 + i < 4294967296 := by omega
    refine ⟨?_, ?_, ?_, ?_, ?_, ?_, ?_, ?_, ?_⟩
    · rw [show 12 + 24 * i = 12 + (24 * i + 0) from by omega,
        le32val_cueChunk_record ps i 0 hi (by omega),
        cueRecord_field_id _ _ hid]
      omega
    · rw [show 12 + 24 * i + 4 = 12 + (24 * i + 4) from by omega,
        le32val_cueChunk_record ps i 4 hi (by omega),
        cueRecord_field_position _ _ hpi]
    · rw [show 12 + 24 * i + 8 = 12 + (24 * i + 8) from by omega,
        byteAt_cueChunk_record ps i 8 hi (by omega),
        (cueRecord_field_tag _ _).1]
    · rw [show 12 + 24 * i + 9 = 12 + (24 * i + 9) from by omega,
        byteAt_cueChunk_record ps i 9 hi (by omega),
        (cueRecord_field_tag _ _).2.1]
    · rw [show 12 + 24 * i + 10 = 12 + (24 * i + 10) from by omega,
        byteAt_cueChunk_record ps i 10 hi (by omega),
        (cueRecord_field_tag _ _).2.2.1]
    · rw [show 12 + 24 * i + 11 = 12 + (24 * i + 11) from by omega,
        byteAt_cueChunk_record ps i 11 hi (by omega),
        (cueRecord_field_tag _ _).2.2.2]
    · rw [show 12 + 24 * i + 12 = 12 + (24 * i + 12) from by omega,
        le32val_cueChunk_record ps i 12 hi (by omega),
        (cueRecord_field_zeros _ _).1]
    · rw [show 12 + 24 * i + 16 = 12 + (24 * i + 16) from by omega,
        le32val_cueChunk_record ps i 16 hi (by omega),
        (cueRecord_field_zeros _ _).2]
    · rw [show 12 + 24 * i + 20 = 12 + (24 * i + 20) from by omega,
        le32val_cueChunk_record ps i 20 hi (by omega),
        cueRecord_field_sampleOffset _ _ hpi]

/-- Witness for C3 at the two cue positions 44 and 500. -/
theorem c3_cue_chunk_layout_witness :
    (cueChunk [44, 500]).length = 12 + 24 * [44, 500].length ∧
    (cueChunk [44, 500]).take 4 = [99, 117, 101, 32] ∧
    le32val (cueChunk [44, 500]) 4 = 4 + 24 * [44, 500].length ∧
    le32val (cueChunk [44, 500]) 8 = [44, 500].length ∧
    ∀ i, i < [44, 500].length →
      le32val (cueChunk [44, 500]) (12 + 24 * i) = i + 1 ∧
      le32val (cueChunk [44, 500]) (12 + 24 * i + 4) = [44, 500].getD i 0 ∧
      byteAt (cueChunk [44, 500]) (12 + 24 * i + 8) = 100 ∧
      byteAt (cueChunk [44, 500]) (12 + 24 * i + 9) = 97 ∧
      byteAt (cueChunk [44, 500]) (12 + 24 * i + 10) = 116 ∧
      byteAt (cueChunk [44, 500]) (12 + 24 * i + 11) = 97 ∧
      le32val (cueChunk [44, 500]) (12 + 24 * i + 12) = 0 ∧
      le32val (cueChunk [44, 500]) (12 + 24 * i + 16) = 0 ∧
      le32val (cueChunk [44, 500]) (12 + 24 * i + 20) = [44, 500].getD i 0 :=
  c3_cue_chunk_layout [44, 500] (by decide) (by decide)

theorem concatLoop_fail (cfg : RunConfig) (split : AudioSeg → List AudioSeg) (total : ℕ) :
    ∀ (files : List (Option AudioSeg)) (i : ℕ) (st : Option (AudioSeg × AudioSeg × ℕ))
      (conc : AudioSeg) (cues : List ℕ) (calls : List (ℕ × ℕ)),
    none ∈ files →
    (concatLoop cfg split total files i st conc cues calls).success = false := by
  intro files
  induction files with
  | nil => intro i st conc cues calls h; simp at h
  | cons f rest ih =>
    intro i st conc cues calls h
    rcases f with _ | audio
    · simp [concatLoop]
    · have hr : none ∈ rest := by
        rcases List.mem_cons.mp h with hc | hc
        · exact absurd hc.symm (Option.some_ne_none audio)
        · exact hc
      rcases st with _ | ⟨⟨marker, pad, tc⟩⟩
      · simp only [concatLoop]
        exact ih _ _ _ _ _ hr
      · simp only [concatLoop]
        exact ih _ _ _ _ _ hr

theorem concatLoop_ok (cfg : RunConfig) (split : AudioSeg → List AudioSeg) (total : ℕ) :
    ∀ (files : List (Option AudioSeg)) (i : ℕ) (st : Option (AudioSeg × AudioSeg × ℕ))
      (conc : AudioSeg) (cues : List ℕ) (calls : List (ℕ × ℕ)),
    none ∉ files →
    (concatLoop cfg split total files i st conc cues calls).calls =
      calls ++ (List.range' i files.length).map (fun k => (k, total)) ∧
    (concatLoop cfg split total files i st conc cues calls).success = true := by
  intro files
  induction files with
  | nil =>
    intro i st conc cues calls _
    simp [concatLoop, List.range']
  | cons f rest ih =>
    intro i st conc cues calls h
    rcases f with _ | audio
    · exact absurd (List.mem_cons_self _ _) h
    have hr : none ∉ rest := fun hc => h (List.mem_cons_of_mem _ hc)
    have hrange : List.range' i (rest.length + 1) = i :: List.range' (i + 1) rest.length :=
      List.range'_succ i rest.length 1
    rcases st with _ | ⟨⟨marker, pad, tc⟩⟩
    · simp only [concatLoop]
      obtain ⟨h1, h2⟩ := ih (i + 1) _ _ _ _ hr
      refine ⟨?_, h2⟩
      rw [h1, List.length_cons, hrange]
      simp
    · simp only [concatLoop]
      obtain ⟨h1, h2⟩ := ih (i + 1) _ _ _ _ hr
      refine ⟨?_, h2⟩
      rw [h1, List.length_cons, hrange]
      simp

/-- C8: a decode failure anywhere in the input list makes the whole run
return failure with no artifacts written: no WAV exported, no cue
chunk, no `.ot` file. -/
theorem c8_load_failure_aborts (cfg : RunConfig) (split : AudioSeg → List AudioSeg)
    (files : List (Option AudioSeg)) (h : none ∈ files) :
    (concatenateAudioFiles cfg split files).success = false ∧
    (concatenateAudioFiles cfg split files).exported = false ∧
    (concatenateAudioFiles cfg split files).cueChunkWritten = false ∧
    (concatenateAudioFiles cfg split files).otWritten = false := by
  have hfail := concatLoop_fail cfg split files.length files 0 none emptySeg [] [] h
  unfold concatenateAudioFiles
  rw [if_neg (by rw [hfail]; exact Bool.false_ne_true)]
  exact ⟨rfl, rfl, rfl, rfl⟩

/-- Witness for C8: a one-file run whose file fails to decode. -/
theorem c8_load_failure_aborts_witness :
    (concatenateAudioFiles ⟨1, 1, false, OutputFormat.both⟩ (fun _ => []) [none]).success = false ∧
    (concatenateAudioFiles ⟨1, 1, false, OutputFormat.both⟩ (fun _ => []) [none]).exported = false ∧
    (concatenateAudioFiles ⟨1, 1, false, OutputFormat.both⟩ (fun _ => []) [none]).cueChunkWritten = false ∧
    (concatenateAudioFiles ⟨1, 1, false, OutputFormat.both⟩ (fun _ => []) [none]).otWritten = false :=
  c8_load_failure_aborts ⟨1, 1, false, OutputFormat.both⟩ (fun _ => []) [none]
    (List.mem_singleton.mpr rfl)

/-- C9 (amended): when every file decodes, the progress callback is
invoked exactly `N + 1` times: with `(i, N)` before file `i` for each
`i < N`, then once with `(N, N)` after the loop.  (When a decode fails
at file `i`, the run aborts after `i + 1` invocations and the
completion call never happens — see the counterexample.) -/
theorem c9_progress_calls (cfg : RunConfig) (split : AudioSeg → List AudioSeg)
    (files : List (Option AudioSeg)) (h : none ∉ files) :
    (concatenateAudioFiles cfg split files).calls =
      (List.range files.length).map (fun k => (k, files.length)) ++
        [(files.length, files.length)] ∧
    (concatenateAudioFiles cfg split files).calls.length = files.length + 1 := by
  obtain ⟨h1, h2⟩ := concatLoop_ok cfg split files.length files 0 none emptySeg [] [] h
  have hcalls : (concatLoop cfg split files.length files 0 none emptySeg [] []).calls ++
      [(files.length, files.length)] =
      (List.range files.length).map (fun k => (k, files.length)) ++
        [(files.length, files.length)] := by
    rw [h1, List.range_eq_range']
    simp
  simp only [concatenateAudioFiles]
  rw [h2, if_pos rfl]
  split
  · exact ⟨hcalls, by simpa using congrArg List.length hcalls⟩
  · exact ⟨hcalls, by simpa using congrArg List.length hcalls⟩

/-- Witness for C9 (amended) on a two-file run. -/
theorem c9_progress_calls_witness :
    (concatenateAudioFiles ⟨1, 1, false, OutputFormat.m8⟩ (fun _ => [])
        [some ⟨100, 1, 1000⟩, some ⟨50, 1, 1000⟩]).calls =
      (List.range [some (⟨100, 1, 1000⟩ : AudioSeg), some ⟨50, 1, 1000⟩].length).map
        (fun k => (k, [some (⟨100, 1, 1000⟩ : AudioSeg), some ⟨50, 1, 1000⟩].length)) ++
        [([some (⟨100, 1, 1000⟩ : AudioSeg), some ⟨50, 1, 1000⟩].length,
          [some (⟨100, 1, 1000⟩ : AudioSeg), some ⟨50, 1, 1000⟩].length)] ∧
    (concatenateAudioFiles ⟨1, 1, false, OutputFormat.m8⟩ (fun _ => [])
        [some ⟨100, 1, 1000⟩, some ⟨50, 1, 1000⟩]).calls.length =
      [some (⟨100, 1, 1000⟩ : AudioSeg), some ⟨50, 1, 1000⟩].length + 1 :=
  c9_progress_calls ⟨1, 1, false, OutputFormat.m8⟩ (fun _ => [])
    [some ⟨100, 1, 1000⟩, some ⟨50, 1, 1000⟩] (by decide)

/-- C9 counterexample: with one undecodable file the callback runs
once, with `(0, 1)`, not the claimed `N + 1 = 2` times, and no
completion call is made. -/
theorem c9_progress_calls_aborted_run :
    (concatenateAudioFiles ⟨1, 1, false, OutputFormat.m8⟩ (fun _ => []) [none]).calls =
      [(0, 1)] ∧
    (concatenateAudioFiles ⟨1, 1, false, OutputFormat.m8⟩ (fun _ => [])
        [none]).calls.length ≠ [(none : Option AudioSeg)].length + 1 := by
  refine ⟨by decide, by decide⟩

theorem sliceDropLastMs_channels (s : AudioSeg) (r : ℕ) :
    (sliceDropLastMs s r).channels = s.channels := rfl

theorem foldJoin_channels (pad : AudioSeg) (tc : ℕ) (hp : pad.channels = tc) :
    ∀ (chunks : List AudioSeg) (acc : AudioSeg),
    (∀ c ∈ chunks, c.channels = tc) →
    (chunks.foldl (fun acc c => appendSeg acc (appendSeg c pad)) acc).channels =
      if chunks.isEmpty then acc.channels else max acc.channels tc := by
  intro chunks
  induction chunks with
  | nil => intro acc _; rfl
  | cons c rest ih =>
    intro acc hc
    rw [List.foldl_cons]
    rw [ih _ (fun x hx => hc x (List.mem_cons_of_mem _ hx))]
    have hcc : c.channels = tc := hc c (List.mem_cons_self _ _)
    by_cases hrest : rest.isEmpty
    · rw [if_pos hrest]
      simp [appendSeg, hcc, hp, List.isEmpty_cons]
    · rw [if_neg hrest]
      simp only [appendSeg, hcc, hp, max_self, List.isEmpty_cons, if_neg]
      simp [max_assoc]

theorem processSilence_channels (split : AudioSeg → List AudioSeg) (audio pad : AudioSeg)
    (r tc : ℕ) (htc : 1 ≤ tc) (ha : audio.channels = tc) (hp : pad.channels = tc)
    (hsplit : ∀ c ∈ split audio, c.channels = audio.channels) :
    (processSilence split audio pad r).channels = tc := by
  rw [processSilence]
  by_cases hc : (split audio).isEmpty
  · rw [if_pos hc]
    exact ha
  · rw [if_neg hc, rejoin, sliceDropLastMs_channels]
    rw [foldJoin_channels pad tc hp _ emptySeg (fun c hc2 => (hsplit c hc2).trans ha)]
    rw [if_neg hc]
    show max emptySeg.channels tc = tc
    rw [show emptySeg.channels = 1 from rfl]
    omega

theorem convertChannels_channels (audio : AudioSeg) (tc : ℕ) (h : audio.channels = tc) :
    convertChannels audio tc = audio := by
  rw [convertChannels, if_neg (by omega)]

theorem convertChannels_channels_eq (audio : AudioSeg) (tc : ℕ) :
    (convertChannels audio tc).channels = tc := by
  rw [convertChannels]
  by_cases h : audio.channels ≠ tc
  · rw [if_pos h]; rfl
  · rw [if_neg h]; omega

theorem stepFile_spec (cfg : RunConfig) (split : AudioSeg → List AudioSeg)
    (marker pad : AudioSeg) (tc : ℕ) (audio conc : AudioSeg)
    (htc : 1 ≤ tc) (hm : marker.channels = tc) (hp : pad.channels = tc)
    (hcc : conc.channels = tc)
    (hsplit : ∀ s : AudioSeg, ∀ c ∈ split s, c.channels = s.channels) :
    (stepFile cfg split marker pad tc audio conc).1.channels = tc ∧
    (stepFile cfg split marker pad tc audio conc).1.frames =
      conc.frames +
        (processSilence split (convertChannels audio tc) pad cfg.retainedMs).frames +
        marker.frames ∧
    (stepFile cfg split marker pad tc audio conc).2 =
      conc.frames +
        (processSilence split (convertChannels audio tc) pad cfg.retainedMs).frames := by
  have hpc : (processSilence split (convertChannels audio tc) pad cfg.retainedMs).channels = tc :=
    processSilence_channels split (convertChannels audio tc) pad cfg.retainedMs tc htc
      (convertChannels_channels_eq audio tc) hp (hsplit (convertChannels audio tc))
  refine ⟨?_, ?_, ?_⟩
  · show (appendSeg (appendSeg conc _) marker).channels = tc
    simp [appendSeg, hcc, hpc, hm]
  · show (appendSeg (appendSeg conc _) marker).frames = _
    simp [appendSeg]
  · show framePosition (appendSeg conc _) = _
    rw [framePosition, sampleCount]
    have hch : (appendSeg conc
        (processSilence split (convertChannels audio tc) pad cfg.retainedMs)).channels = tc := by
      simp [appendSeg, hcc, hpc]
    rw [hch]
    rw [Nat.mul_div_cancel _ (by omega : 0 < tc)]
    rfl

theorem concatLoop_steady (cfg : RunConfig) (split : AudioSeg → List AudioSeg) (total : ℕ)
    (marker pad : AudioSeg) (tc : ℕ) (htc : 1 ≤ tc)
    (hm : marker.channels = tc) (hp : pad.channels = tc)
    (hsplit : ∀ s : AudioSeg, ∀ c ∈ split s, c.channels = s.channels) :
    ∀ (files : List (Option AudioSeg)) (i : ℕ) (conc : AudioSeg) (cues : List ℕ)
      (calls : List (ℕ × ℕ)),
    none ∉ files →
    conc.channels = tc →
    (∀ a : AudioSeg, some a ∈ files →
      1 ≤ (processSilence split (convertChannels a tc) pad cfg.retainedMs).frames) →
    ∃ gen : List ℕ,
      (concatLoop cfg split total files i (some (marker, pad, tc)) conc cues calls).cues =
        cues ++ gen ∧
      gen.length = files.length ∧
      List.Chain' (fun a b => a < b) gen ∧
      ∀ x ∈ gen, conc.frames < x := by
  intro files
  induction files with
  | nil =>
    intro i conc cues calls _ _ _
    exact ⟨[], by simp [concatLoop], rfl, List.chain'_nil, by simp⟩
  | cons f rest ih =>
    intro i conc cues calls hnone hcc hproc
    rcases f with _ | audio
    · exact absurd (List.mem_cons_self _ _) hnone
    obtain ⟨hs1, hs2, hs3⟩ :=
      stepFile_spec cfg split marker pad tc audio conc htc hm hp hcc hsplit
    have hpr : 1 ≤ (processSilence split (convertChannels audio tc) pad
        cfg.retainedMs).frames := hproc audio (List.mem_cons_self _ _)
    have hnone2 : none ∉ rest := fun hc => hnone (List.mem_cons_of_mem _ hc)
    obtain ⟨gen, hg1, hg2, hg3, hg4⟩ :=
      ih (i + 1) (stepFile cfg split marker pad tc audio conc).1
        (cues ++ [(stepFile cfg split marker pad tc audio conc).2])
        (calls ++ [(i, total)]) hnone2 hs1
        (fun a ha => hproc a (List.mem_cons_of_mem _ ha))
    refine ⟨(stepFile cfg split marker pad tc audio conc).2 :: gen, ?_, ?_, ?_, ?_⟩
    · simp only [concatLoop]
      rw [hg1, List.append_assoc]
      rfl
    · simp [hg2]
    · rw [List.chain'_cons']
      refine ⟨?_, hg3⟩
      intro y hy
      have hyg := hg4 y (List.mem_of_mem_head? hy)
      rw [hs2] at hyg
      rw [hs3]
      omega
    · intro x hx
      rcases List.mem_cons.mp hx with hx | hx
      · rw [hx, hs3]
        omega
      · have := hg4 x hx
        rw [hs2] at this
        omega

theorem concatenateAudioFiles_cues_eq (cfg : RunConfig) (split : AudioSeg → List AudioSeg)
    (files : List (Option AudioSeg)) :
    (concatenateAudioFiles cfg split files).cues =
      (concatLoop cfg split files.length files 0 none emptySeg [] []).cues := by
  simp only [concatenateAudioFiles]
  split
  · split <;> rfl
  · rfl

/-- C1 (amended): for a run over `N ≥ 1` decodable files (sharing the
first file's frame rate; mixed rates are out of scope per spec §9)
whose per-file trimmed audio is nonempty, the recorded cue list has
exactly `N + 1` entries, its first entry is the marker buffer's frame
count (marker sample count divided by its channel count), and the
entries are strictly increasing.  Without the nonemptiness hypothesis
strictness can fail — see the counterexample — though the list is
always non-decreasing. -/
theorem c1_cue_positions (cfg : RunConfig) (split : AudioSeg → List AudioSeg)
    (a0 : AudioSeg) (rest : List (Option AudioSeg))
    (hch : 1 ≤ a0.channels)
    (hsplit : ∀ s : AudioSeg, ∀ c ∈ split s, c.channels = s.channels)
    (hrate : ∀ a : AudioSeg, some a ∈ (some a0 :: rest) → a.rate = a0.rate)
    (hnone : none ∉ rest)
    (hproc : ∀ a : AudioSeg, some a ∈ (some a0 :: rest) →
      1 ≤ (processSilence split
            (convertChannels a (if cfg.forceMono then 1 else a0.channels))
            (setChannels (silentSeg cfg.retainedMs a0.rate)
              (if cfg.forceMono then 1 else a0.channels))
            cfg.retainedMs).frames) :
    (concatenateAudioFiles cfg split (some a0 :: rest)).cues.length =
      (some a0 :: rest).length + 1 ∧
    (concatenateAudioFiles cfg split (some a0 :: rest)).cues.head? =
      some (sampleCount (setChannels (silentSeg cfg.markerMs a0.rate)
          (if cfg.forceMono then 1 else a0.channels)) /
        (setChannels (silentSeg cfg.markerMs a0.rate)
          (if cfg.forceMono then 1 else a0.channels)).channels) ∧
    List.Chain' (fun a b => a < b) (concatenateAudioFiles cfg split (some a0 :: rest)).cues := by
  have htc : 1 ≤ (if cfg.forceMono then 1 else a0.channels) := by
    by_cases hf : cfg.forceMono
    · rw [if_pos hf]
    · rw [if_neg hf]
      exact hch
  set tc := if cfg.forceMono then 1 else a0.channels with htcdef
  set marker := setChannels (silentSeg cfg.markerMs a0.rate) tc with hmdef
  set pad := setChannels (silentSeg cfg.retainedMs a0.rate) tc with hpdef
  have hmch : marker.channels = tc := rfl
  have hpch : pad.channels = tc := rfl
  have hconc1 : (appendSeg emptySeg marker).channels = tc := by
    show max emptySeg.channels marker.channels = tc
    rw [hmch, show emptySeg.channels = 1 from rfl]
    omega
  obtain ⟨hs1, hs2, hs3⟩ := stepFile_spec cfg split marker pad tc a0
    (appendSeg emptySeg marker) htc hmch hpch hconc1 hsplit
  have hpr0 : 1 ≤ (processSilence split (convertChannels a0 tc) pad cfg.retainedMs).frames :=
    hproc a0 (List.mem_cons_self _ _)
  obtain ⟨gen, hg1, hg2, hg3, hg4⟩ :=
    concatLoop_steady cfg split (some a0 :: rest).length marker pad tc htc hmch hpch hsplit
      rest 1 (stepFile cfg split marker pad tc a0 (appendSeg emptySeg marker)).1
      [sampleCount marker / marker.channels,
        (stepFile cfg split marker pad tc a0 (appendSeg emptySeg marker)).2]
      [(0, (some a0 :: rest).length)] hnone hs1
      (fun a ha => hproc a (List.mem_cons_of_mem _ ha))
  have hloop : (concatLoop cfg split (some a0 :: rest).length (some a0 :: rest) 0 none
      emptySeg [] []).cues =
      sampleCount marker / marker.channels ::
        (stepFile cfg split marker pad tc a0 (appendSeg emptySeg marker)).2 :: gen := by
    simp only [concatLoop, Nat.zero_add, List.nil_append]
    rw [hg1]
    rfl
  have hwrap := concatenateAudioFiles_cues_eq cfg split (some a0 :: rest)
  have hconc1f : (appendSeg emptySeg marker).frames = marker.frames := by
    show emptySeg.frames + marker.frames = marker.frames
    rw [show emptySeg.frames = 0 from rfl]
    omega
  have hmf : sampleCount marker / marker.channels = marker.frames := by
    rw [sampleCount, hmch, Nat.mul_div_cancel _ (by omega : 0 < tc)]
  refine ⟨?_, ?_, ?_⟩
  · rw [hwrap, hloop]
    simp [hg2]
  · rw [hwrap, hloop]
    rfl
  · rw [hwrap, hloop]
    rw [List.chain'_cons']
    constructor
    · intro y hy
      have hyfp : y = (stepFile cfg split marker pad tc a0 (appendSeg emptySeg marker)).2 :=
        (by simpa using hy : _ = y).symm
      rw [hyfp, hs3, hconc1f, hmf]
      omega
    · rw [List.chain'_cons']
      refine ⟨?_, hg3⟩
      intro y hy
      have hyg := hg4 y (List.mem_of_mem_head? hy)
      rw [hs2] at hyg
      rw [hs3]
      omega

/-- Witness for C1 (amended): one 0.1-second mono 44100 Hz file in
which the silence splitter finds no nonsilent chunks (so the original
audio is kept); the marker is 1 ms = 44 frames. -/
theorem c1_cue_positions_witness :
    (concatenateAudioFiles ⟨1, 1, false, OutputFormat.m8⟩ (fun _ => [])
        [some ⟨4410, 1, 44100⟩]).cues.length =
      [some (⟨4410, 1, 44100⟩ : AudioSeg)].length + 1 ∧
    (concatenateAudioFiles ⟨1, 1, false, OutputFormat.m8⟩ (fun _ => [])
        [some ⟨4410, 1, 44100⟩]).cues.head? = some 44 ∧
    List.Chain' (fun a b => a < b)
      (concatenateAudioFiles ⟨1, 1, false, OutputFormat.m8⟩ (fun _ => [])
        [some ⟨4410, 1, 44100⟩]).cues :=
  c1_cue_positions ⟨1, 1, false, OutputFormat.m8⟩ (fun _ => []) ⟨4410, 1, 44100⟩ []
    (by decide)
    (fun _ c hc => absurd hc (List.not_mem_nil c))
    (by
      intro a ha
      have : a = ⟨4410, 1, 44100⟩ := by simpa using ha
      rw [this])
    (by simp)
    (by
      intro a ha
      have : a = ⟨4410, 1, 44100⟩ := by simpa using ha
      rw [this]
      decide)

/-- C1 counterexample: a decodable 0-frame WAV (empty audio, a valid
file) produces the cue list `[44, 44]` — `N + 1` entries whose first is
the marker frame count, but not strictly increasing, because the
processed audio of the file is empty. -/
theorem c1_cue_positions_not_strict :
    (concatenateAudioFiles ⟨1, 1, false, OutputFormat.m8⟩ (fun _ => [])
        [some ⟨0, 1, 44100⟩]).cues = [44, 44] ∧
    ¬ List.Chain' (fun a b => a < b)
      (concatenateAudioFiles ⟨1, 1, false, OutputFormat.m8⟩ (fun _ => [])
        [some ⟨0, 1, 44100⟩]).cues := by
  have h1 : (concatenateAudioFiles ⟨1, 1, false, OutputFormat.m8⟩ (fun _ => [])
      [some ⟨0, 1, 44100⟩]).cues = [44, 44] := by decide
  refine ⟨h1, ?_⟩
  rw [h1]
  intro hch
  have := (List.chain'_cons.mp hch).1
  omega

theorem pyIntTrunc_zero : pyIntTrunc 0 = 0 := by
  simpa using pyIntTrunc_natCast 0

theorem foldJoin_frames (pad : AudioSeg) :
    ∀ (chunks : List AudioSeg) (acc : AudioSeg),
    (chunks.foldl (fun acc c => appendSeg acc (appendSeg c pad)) acc).frames =
      acc.frames + ((chunks.map AudioSeg.frames).sum + chunks.length * pad.frames) := by
  intro chunks
  induction chunks with
  | nil => intro acc; simp
  | cons c rest ih =>
    intro acc
    rw [List.foldl_cons, ih]
    show (acc.frames + (c.frames + pad.frames)) + _ = _
    simp only [List.map_cons, List.sum_cons, List.length_cons]
    ring

theorem foldJoin_rate (pad : AudioSeg) (fr : ℕ) (hp : pad.rate = fr) :
    ∀ (chunks : List AudioSeg) (acc : AudioSeg),
    (∀ c ∈ chunks, c.rate = fr) →
    (chunks.foldl (fun acc c => appendSeg acc (appendSeg c pad)) acc).rate =
      if chunks.isEmpty then acc.rate else max acc.rate fr := by
  intro chunks
  induction chunks with
  | nil => intro acc _; rfl
  | cons c rest ih =>
    intro acc hc
    rw [List.foldl_cons]
    rw [ih _ (fun x hx => hc x (List.mem_cons_of_mem _ hx))]
    have hcc : c.rate = fr := hc c (List.mem_cons_self _ _)
    by_cases hrest : rest.isEmpty
    · rw [if_pos hrest]
      simp [appendSeg, hcc, hp, List.isEmpty_cons]
    · rw [if_neg hrest]
      simp only [appendSeg, hcc, hp, max_self, List.isEmpty_cons, if_neg]
      simp [max_assoc]

/-- Evaluation of `seg[:-r]` when the millisecond/frame conversions are
exact: `1000 | rate * r` and `rate | 1000 * frames` make both the
segment length in ms and the end frame land on integers, so exactly
`rate * r / 1000` frames are dropped. -/
theorem sliceDropLastMs_exact (s : AudioSeg) (r : ℕ) (hr : 1 ≤ r) (hfr : 1 ≤ s.rate)
    (hdiv2 : s.rate ∣ 1000 * s.frames) (hdiv1 : 1000 ∣ s.rate * r)
    (hge : s.rate * r / 1000 ≤ s.frames) :
    (sliceDropLastMs s r).frames = s.frames - s.rate * r / 1000 := by
  have hq_mul : 1000 * s.frames / s.rate * s.rate = 1000 * s.frames :=
    Nat.div_mul_cancel hdiv2
  have hp_mul : s.rate * r / 1000 * 1000 = s.rate * r := Nat.div_mul_cancel hdiv1
  have hfr0 : (s.rate : ℚ) ≠ 0 := Nat.cast_ne_zero.mpr (by omega)
  have hlen : lenMs s = 1000 * s.frames / s.rate := by
    rw [lenMs]
    rw [show (1000 * (s.frames : ℚ)) / (s.rate : ℚ) =
        ((1000 * s.frames / s.rate : ℕ) : ℚ) from by
      rw [Nat.cast_div hdiv2 hfr0]
      push_cast
      ring]
    rw [pyRound_natCast]
    exact Int.toNat_natCast _
  have hrq : r ≤ 1000 * s.frames / s.rate := by
    have h1 : r * s.rate ≤ 1000 * s.frames / s.rate * s.rate := by
      rw [hq_mul]
      calc r * s.rate = s.rate * r := mul_comm _ _
        _ = s.rate * r / 1000 * 1000 := hp_mul.symm
        _ ≤ s.frames * 1000 := Nat.mul_le_mul_right _ hge
        _ = 1000 * s.frames := mul_comm _ _
    exact Nat.le_of_mul_le_mul_right h1 (by omega)
  have hnat : (1000 * s.frames / s.rate - r) * s.rate =
      (s.frames - s.rate * r / 1000) * 1000 := by
    have h1 : (1000 * s.frames / s.rate - r) * s.rate =
        1000 * s.frames / s.rate * s.rate - r * s.rate :=
      Nat.sub_mul _ _ _
    have h2 : r * s.rate = s.rate * r / 1000 * 1000 := by
      rw [mul_comm r s.rate, hp_mul]
    omega
  have heval : (((1000 * s.frames / s.rate - r : ℕ) : ℚ)) * (s.rate : ℚ) / 1000 =
      ((s.frames - s.rate * r / 1000 : ℕ) : ℚ) := by
    rw [div_eq_iff (by norm_num : (1000 : ℚ) ≠ 0)]
    exact_mod_cast hnat
  simp only [sliceDropLastMs]
  rw [if_neg (by omega : ¬ r = 0)]
  rw [hlen, ← Int.natCast_sub hrq, Int.cast_natCast]
  rw [heval, pyIntTrunc_natCast]
  rw [if_pos (Int.natCast_nonneg _)]
  simp

/-- C4 (amended): for a nonempty chunk list at a common frame rate,
a retained-silence pad of at least 1 ms, and exact ms/frame
conversions (`1000 | rate * retained_ms` and
`rate | 1000 * joined_frame_count`), the rejoined buffer's frame count
is the sum of the chunks' frame counts plus one pad between
consecutive chunks.  Both exactness conditions are needed: with
`retained_ms = 0` Python's `[:-0]` empties the buffer (see the
counterexample), and off-grid frame counts shift the result through
pydub's millisecond rounding. -/
theorem c4_rejoin_frame_count (chunks : List AudioSeg) (pad : AudioSeg)
    (retainedMs fr tc : ℕ)
    (hne : chunks ≠ [])
    (hr : 1 ≤ retainedMs)
    (hfr : 1 ≤ fr)
    (hpad : pad = setChannels (silentSeg retainedMs fr) tc)
    (hrates : ∀ c ∈ chunks, c.rate = fr)
    (hdiv1 : 1000 ∣ fr * retainedMs)
    (hdiv2 : fr ∣ 1000 * ((chunks.map AudioSeg.frames).sum + chunks.length * pad.frames)) :
    (rejoin chunks pad retainedMs).frames =
      (chunks.map AudioSeg.frames).sum + pad.frames * (chunks.length - 1) := by
  have hpf : pad.frames = fr * retainedMs / 1000 := by rw [hpad]; rfl
  have hpr : pad.rate = fr := by rw [hpad]; rfl
  have hn1 : 1 ≤ chunks.length := List.length_pos.mpr hne
  have hjf : (chunks.foldl (fun acc c => appendSeg acc (appendSeg c pad)) emptySeg).frames =
      (chunks.map AudioSeg.frames).sum + chunks.length * pad.frames := by
    rw [foldJoin_frames]
    simp [emptySeg]
  have hjr : (chunks.foldl (fun acc c => appendSeg acc (appendSeg c pad)) emptySeg).rate =
      fr := by
    rw [foldJoin_rate pad fr hpr chunks emptySeg hrates]
    rw [if_neg (by simpa using hne)]
    show max emptySeg.rate fr = fr
    rw [show emptySeg.rate = 1 from rfl]
    omega
  have hge : fr * retainedMs / 1000 ≤
      (chunks.map AudioSeg.frames).sum + chunks.length * pad.frames := by
    rw [← hpf]
    have : pad.frames ≤ chunks.length * pad.frames := Nat.le_mul_of_pos_left _ (by omega)
    omega
  rw [rejoin]
  rw [sliceDropLastMs_exact _ retainedMs hr (by rw [hjr]; exact hfr)
    (by rw [hjr, hjf]; exact hdiv2) (by rw [hjr]; exact hdiv1)
    (by rw [hjr, hjf]; exact hge)]
  rw [hjf, hjr, ← hpf]
  have hsplitn : chunks.length = (chunks.length - 1) + 1 := by omega
  have hk : chunks.length * pad.frames =
      (chunks.length - 1) * pad.frames + pad.frames := by
    calc chunks.length * pad.frames
        = ((chunks.length - 1) + 1) * pad.frames := by rw [← hsplitn]
      _ = (chunks.length - 1) * pad.frames + pad.frames := by rw [Nat.succ_mul]
  rw [hk, Nat.mul_comm pad.frames (chunks.length - 1)]
  omega

/-- Witness for C4 (amended): one 0.1-second chunk at 48000 Hz with a
1 ms pad (48 frames); all conversions are exact. -/
theorem c4_rejoin_frame_count_witness :
    (rejoin [⟨4800, 1, 48000⟩] (setChannels (silentSeg 1 48000) 1) 1).frames =
      ([(⟨4800, 1, 48000⟩ : AudioSeg)].map AudioSeg.frames).sum +
        (setChannels (silentSeg 1 48000) 1).frames *
          ([(⟨4800, 1, 48000⟩ : AudioSeg)].length - 1) :=
  c4_rejoin_frame_count [⟨4800, 1, 48000⟩] (setChannels (silentSeg 1 48000) 1) 1 48000 1
    (by decide) (by decide) (by decide) rfl (by decide) (by decide) (by decide)

/-- C4 counterexample: with a 0 ms retained-silence pad the claim fails
— Python's `[:-0]` is `[:0]`, so the rejoined buffer is empty rather
than the 4800-frame chunk total. -/
theorem c4_rejoin_zero_pad :
    (rejoin [⟨4800, 1, 48000⟩] (setChannels (silentSeg 0 48000) 1) 0).frames = 0 ∧
    ([(⟨4800, 1, 48000⟩ : AudioSeg)].map AudioSeg.frames).sum +
      (setChannels (silentSeg 0 48000) 1).frames *
        ([(⟨4800, 1, 48000⟩ : AudioSeg)].length - 1) = 4800 ∧
    (0 : ℕ) ≠ 4800 := by
  refine ⟨?_, by decide, by decide⟩
  simp only [rejoin, sliceDropLastMs]
  simp [pyIntTrunc_zero]
